import Mathlib

/-!
# Temperature analysis: station extremes and daily averages

A shallow embedding of `src/temperature_data.c`.

* `int` and `long` values are `Int` (no arithmetic in the two report functions can
  leave the machine range: keys have at most eight characters, counters are bounded
  by the number of observations).
* `float` temperatures are rationals, i.e. exact arithmetic.
* An `Observation*` is `Option Observation` (`none` is `NULL`): the observation array is
  never written by the report functions and the only pointer test is the test against
  `NULL`, so a pointer into the array is represented by the observation it points to.
* A `Node*` is `Option Nat`, an index into the list of allocated nodes (the heap);
  `nodeCreate` allocates at the end of that list.
* Every function that can dereference an invalid pointer, index an array out of
  bounds or overflow a buffer returns `Option`; `none` stands for "no defined result".
  Loops over linked nodes carry a fuel counter and give `none` when it runs out.
* `printf` output is the list of printed lines, each line being the values printed.
-/

namespace TemperatureData

/-! ## Data model -/

/-- Modelled from the spec: the header `temperature_data.h` is not part of the sources;
a `Date` is the record of the three integers `year`, `month`, `day` that the code reads
through `obs_date.year`, `obs_date.month` and `obs_date.day`. -/
structure Date where
  year : Int
  month : Int
  day : Int
deriving DecidableEq, Repr

/-- Modelled from the spec: the header `temperature_data.h` is not part of the sources;
an `Observation` carries the fields the code reads (`obs_date`, `hour`, `minute`,
`station_id`, `temperature`), in the order `read_observation` fills them. -/
structure Observation where
  obs_date : Date
  hour : Int
  minute : Int
  station_id : Int
  temperature : ℚ
deriving DecidableEq, Repr

/-! ## Station extremes -/

/-- The constant `MAX_STATION_NUMBER`. -/
def MAX_STATION_NUMBER : Nat := 250

/-- The struct `ObservationExtreme`: two pointers to observations. -/
structure ObservationExtreme where
  min : Option Observation
  max : Option Observation
deriving DecidableEq, Repr

/-- The function `compareObservations`: `1` when some component of `a` (year, month, day,
hour, minute, temperature, each compared on its own) is smaller than that of `b`,
otherwise `0`; `0` as well when one of the pointers is `NULL`. -/
def compareObservations (a b : Option Observation) : Int :=
  match a, b with
  | some a, some b =>
    let p := a.obs_date
    let q := b.obs_date
    if p.year < q.year
        ∨ p.month < q.month
        ∨ p.day < q.day
        ∨ a.hour < b.hour
        ∨ a.minute < b.minute
        ∨ a.temperature < b.temperature then 1
    else 0
  | _, _ => 0

/-- One printed line of the station report: the station id (read from the minimum
observation) followed by the minimum and the maximum observation, whose temperature,
date, hour and minute are printed. -/
structure StationLine where
  station_id : Int
  min : Observation
  max : Observation
deriving DecidableEq, Repr

/-- The function `print_station_extreme_info`: the line printed for one entry. Both
pointers are dereferenced, so the result is undefined when one of them is `NULL`. -/
def print_station_extreme_info (a : ObservationExtreme) : Option StationLine :=
  match a.min, a.max with
  | some mn, some mx => some { station_id := mn.station_id, min := mn, max := mx }
  | _, _ => none

/-- The `if`/`else` in the body of the first loop of `print_station_extremes`, as it acts
on the entry `extremes[station_id]`: an empty entry takes the observation as minimum and
maximum; otherwise the observation replaces the minimum when `compareObservations` is
positive against it, and replaces the maximum when `compareObservations` is zero against
it. -/
def entryStep (e : ObservationExtreme) (observation : Observation) : ObservationExtreme :=
  if e.min.isSome then
    let e1 : ObservationExtreme :=
      if compareObservations (some observation) e.min > 0 then
        { e with min := some observation }
      else e
    if compareObservations (some observation) e1.max = 0 then
      { e1 with max := some observation }
    else e1
  else
    { min := some observation, max := some observation }

/-- The body of the first loop of `print_station_extremes`: one observation updates the
entry of its station. The array has `MAX_STATION_NUMBER + 1` entries; an index outside
of it has no defined result. -/
def extremesStep (extremes : List ObservationExtreme) (observation : Observation) :
    Option (List ObservationExtreme) :=
  let station_id := observation.station_id
  if 0 ≤ station_id then
    match extremes[station_id.toNat]? with
    | none => none
    | some e => some (extremes.set station_id.toNat (entryStep e observation))
  else none

/-- The first loop of `print_station_extremes` over the observation array. -/
def extremesLoop : List ObservationExtreme → List Observation →
    Option (List ObservationExtreme)
  | extremes, [] => some extremes
  | extremes, o :: rest =>
    match extremesStep extremes o with
    | none => none
    | some extremes1 => extremesLoop extremes1 rest

/-- The second loop of `print_station_extremes`, over the indices in `is`: an entry
whose `min` is set is printed. -/
def printLoop (extremes : List ObservationExtreme) : List Nat → Option (List StationLine)
  | [] => some []
  | i :: is =>
    match extremes[i]? with
    | none => none
    | some e =>
      if e.min.isSome then
        match print_station_extreme_info e, printLoop extremes is with
        | some line, some lines => some (line :: lines)
        | _, _ => none
      else printLoop extremes is

/-- The function `print_station_extremes`: the lines it prints. Nothing happens when
`num_observations` is not positive; the printing loop runs over `i = 1` while
`i < MAX_STATION_NUMBER`. -/
def print_station_extremes (obs_array : List Observation) : Option (List StationLine) :=
  if obs_array.length > 0 then
    let dummy : ObservationExtreme := { min := none, max := none }
    let extremes := List.replicate (MAX_STATION_NUMBER + 1) dummy
    match extremesLoop extremes obs_array with
    | none => none
    | some extremes1 => printLoop extremes1 (List.range' 1 (MAX_STATION_NUMBER - 1))
  else some []

/-! ## Daily averages -/

/-- The decimal digits of a natural number, most significant digit first. -/
def natDigits (n : Nat) : List Char := Nat.toDigits 10 n

/-- The conversion `%0<width>d` of `sprintf`: the decimal digits, padded on the left
with zeros up to `width` characters, the sign of a negative number coming first and
counting towards the width. -/
def formatInt (width : Nat) (n : Int) : List Char :=
  if n < 0 then
    '-' :: (List.replicate (width - 1 - (natDigits n.natAbs).length) '0'
      ++ natDigits n.natAbs)
  else
    List.replicate (width - (natDigits n.toNat).length) '0' ++ natDigits n.toNat

/-- The digit loop of `strtol` in base 10: digits are accumulated until the first
character that is not a digit. -/
def digitsValue : Int → List Char → Int
  | acc, [] => acc
  | acc, c :: cs =>
    if c.isDigit then digitsValue (acc * 10 + ((c.toNat : Int) - 48)) cs else acc

/-- The call `strtol(buffer, NULL, 10)`: leading white space is skipped, an optional
sign is read, then the digits. -/
def strtol (s : List Char) : Int :=
  match s.dropWhile Char.isWhitespace with
  | '-' :: cs => - digitsValue 0 cs
  | '+' :: cs => digitsValue 0 cs
  | cs => digitsValue 0 cs

/-- The key computed in `print_daily_averages`: `sprintf(buffer, "%04d%02d%02d", ...)`
followed by `strtol(buffer, NULL, 10)`. The buffer has 9 bytes, so a text of more than
8 characters overflows it and there is no defined result. -/
def dateKey (d : Date) : Option Int :=
  let buffer := formatInt 4 d.year ++ formatInt 2 d.month ++ formatInt 2 d.day
  if buffer.length + 1 ≤ 9 then some (strtol buffer) else none

/-- The struct `Node`; `prev` and `next` are pointers into the heap of nodes. -/
structure Node where
  key : Int
  value : ℚ
  date : Date
  no_of_observations : Int
  prev : Option Nat
  next : Option Nat
deriving DecidableEq, Repr

/-- The function `nodeCreate`: a zeroed node with the two links is allocated at the end
of the heap; the result is the new heap and the pointer to the node. -/
def nodeCreate (heap : List Node) (prev next : Option Nat) : List Node × Nat :=
  (heap ++ [{ key := 0, value := 0, date := { year := 0, month := 0, day := 0 },
              no_of_observations := 0, prev := prev, next := next }], heap.length)

/-- An assignment through a node pointer `p`: the node is replaced by `f` of it; there
is no defined result when `p` is not the address of a node. -/
def update (heap : List Node) (p : Nat) (f : Node → Node) : Option (List Node) :=
  match heap[p]? with
  | none => none
  | some n => some (heap.set p (f n))

/-- The struct `HashList`. -/
structure HashList where
  head : Option Nat
  tail : Option Nat
deriving DecidableEq, Repr

/-- The function `listCreate`: a pointer to a list object with both ends `NULL`. -/
def listCreate : Option HashList := some { head := none, tail := none }

/-- The `while(iterator)` loop of `listSortedInsert`. A node with the same key is
updated and returned. At the first node with a larger key a new node is created whose
links point to the neighbours, and `iterator->prev` is set to it; no `next` link of the
chain is changed. When the loop runs to the end the result pointer is `NULL`. -/
def scanLoop (key : Int) (value : ℚ) :
    Nat → List Node → Option Nat → Option (List Node × Option Nat)
  | _, heap, none => some (heap, none)
  | 0, _, some _ => none
  | fuel + 1, heap, some iterator =>
    match heap[iterator]? with
    | none => none
    | some n =>
      if key = n.key then
        some (heap.set iterator
          { n with no_of_observations := n.no_of_observations + 1,
                   value := n.value + value }, some iterator)
      else if key < n.key then
        let (heap1, newNode) := nodeCreate heap n.prev (some iterator)
        match update heap1 newNode
            (fun m => { m with key := key, value := value, no_of_observations := 1 }) with
        | none => none
        | some heap2 =>
          match update heap2 iterator (fun m => { m with prev := some newNode }) with
          | none => none
          | some heap3 => some (heap3, some newNode)
      else scanLoop key value fuel heap n.next

/-- The function `listSortedInsert`. The result is the new heap, the list object and the
returned node pointer (`none` is `NULL`). The scan gets as fuel the number of allocated
nodes, which a chain without a cycle cannot exceed. -/
def listSortedInsert (heap : List Node) (list : Option HashList) (key : Int) (value : ℚ) :
    Option (List Node × Option HashList × Option Nat) :=
  match list with
  | none => some (heap, none, none)
  | some l =>
    match l.head with
    | some head =>
      match heap[head]? with
      | none => none
      | some headNode =>
        if key < headNode.key then
          let (heap1, newNode) := nodeCreate heap none l.head
          match update heap1 newNode
              (fun m => { m with key := key, value := value, no_of_observations := 1 }) with
          | none => none
          | some heap2 =>
            match update heap2 head (fun m => { m with prev := some newNode }) with
            | none => none
            | some heap3 => some (heap3, some { l with head := some newNode }, some newNode)
        else
          match l.tail with
          | none => none
          | some tail =>
            match heap[tail]? with
            | none => none
            | some tailNode =>
              if key > tailNode.key then
                let (heap1, newNode) := nodeCreate heap l.tail none
                match update heap1 newNode
                    (fun m => { m with key := key, value := value,
                                       no_of_observations := 1 }) with
                | none => none
                | some heap2 =>
                  match update heap2 tail (fun m => { m with next := some newNode }) with
                  | none => none
                  | some heap3 =>
                    some (heap3, some { l with tail := some newNode }, some newNode)
              else
                match scanLoop key value heap.length heap l.head with
                | none => none
                | some (heap1, ret) => some (heap1, some l, ret)
    | none =>
      let (heap1, newNode) := nodeCreate heap none none
      match update heap1 newNode
          (fun m => { m with key := key, value := value, no_of_observations := 1 }) with
      | none => none
      | some heap2 =>
        some (heap2, some { head := some newNode, tail := some newNode }, some newNode)

/-- The first loop of `print_daily_averages`: every observation is inserted under its
key and the returned node receives the date of the observation. -/
def insertLoop : List Node → Option HashList → List Observation →
    Option (List Node × Option HashList)
  | heap, averages, [] => some (heap, averages)
  | heap, averages, temp :: rest =>
    match dateKey temp.obs_date with
    | none => none
    | some temp_key =>
      match listSortedInsert heap averages temp_key temp.temperature with
      | some (heap1, averages1, some temp_node) =>
        match update heap1 temp_node (fun n => { n with date := temp.obs_date }) with
        | none => none
        | some heap2 => insertLoop heap2 averages1 rest
      | _ => none

/-- The nodes visited by the second loop of `print_daily_averages`: the walk over the
`next` links that starts at `iterator`. -/
def walk : Nat → List Node → Option Nat → Option (List Node)
  | _, _, none => some []
  | 0, _, some _ => none
  | fuel + 1, heap, some iterator =>
    match heap[iterator]? with
    | none => none
    | some n =>
      match walk fuel heap n.next with
      | none => none
      | some ns => some (n :: ns)

/-- The buckets of the daily report: the nodes reached from `averages->head` after all
observations are inserted. The walk gets as fuel the number of allocated nodes. -/
def dailyBuckets (obs_array : List Observation) : Option (List Node) :=
  match insertLoop [] listCreate obs_array with
  | some (heap, some averages) => walk heap.length heap averages.head
  | _ => none

/-- One printed line of the daily report: year, month, day and the average. -/
structure AverageLine where
  year : Int
  month : Int
  day : Int
  average : ℚ
deriving DecidableEq, Repr

/-- The values printed for one node: its date and `value / no_of_observations`. -/
def averageLine (n : Node) : AverageLine :=
  { year := n.date.year, month := n.date.month, day := n.date.day,
    average := n.value / (n.no_of_observations : ℚ) }

/-- The function `print_daily_averages`: the lines it prints, one for every node visited
by the second loop. -/
def print_daily_averages (obs_array : List Observation) : Option (List AverageLine) :=
  match dailyBuckets obs_array with
  | none => none
  | some ns => some (ns.map averageLine)

/-! ## Specification vocabulary

The definitions below are not part of the program. They describe the linked chain
inside the heap and the list of buckets it stands for, and state the properties of
the two reports. -/

/-- The payload of a node: key, accumulated sum, date and number of observations. -/
structure Bucket where
  key : Int
  value : ℚ
  date : Date
  count : Int
deriving DecidableEq, Repr

/-- The payload of a node, its two links left out. -/
def Node.bucket (n : Node) : Bucket :=
  { key := n.key, value := n.value, date := n.date, count := n.no_of_observations }

/-- The chain of nodes that starts at pointer `p` and follows the `next` links up to
`NULL`, as a list of addresses paired with the nodes stored there. -/
def IsChain (heap : List Node) : Option Nat → List (Nat × Node) → Prop
  | p, [] => p = none
  | p, x :: rest => p = some x.1 ∧ heap[x.1]? = some x.2 ∧ IsChain heap x.2.next rest

/-- The list object `l` and the heap represent the chain `ns`: the chain starts at
`l.head`, ends at `l.tail`, and no address occurs twice. -/
def Represents (heap : List Node) (l : HashList) (ns : List (Nat × Node)) : Prop :=
  IsChain heap l.head ns ∧ l.tail = ns.getLast?.map Prod.fst ∧ (ns.map Prod.fst).Nodup

/-- The effect of the scan of `listSortedInsert` (followed by the assignment of the date)
on the buckets of the chain: a bucket with the same key absorbs the value; at the first
larger key the chain is left as it is. -/
def bucketScan (key : Int) (value : ℚ) (date : Date) : List Bucket → List Bucket
  | [] => []
  | b :: bs =>
    if key = b.key then
      { b with count := b.count + 1, value := b.value + value, date := date } :: bs
    else if key < b.key then b :: bs
    else b :: bucketScan key value date bs

/-- The effect of one round of the first loop of `print_daily_averages` on the buckets of
the chain. -/
def bucketInsert (bs : List Bucket) (key : Int) (value : ℚ) (date : Date) : List Bucket :=
  match bs.head?, bs.getLast? with
  | some h, some t =>
    if key < h.key then { key := key, value := value, date := date, count := 1 } :: bs
    else if key > t.key then bs ++ [{ key := key, value := value, date := date, count := 1 }]
    else bucketScan key value date bs
  | _, _ => [{ key := key, value := value, date := date, count := 1 }]

/-- The key of an observation when it is defined. -/
def keyOf (o : Observation) : Int := (dateKey o.obs_date).getD 0

/-- The buckets of the chain after the observations are inserted one by one. -/
def bucketRun (bs : List Bucket) (obs : List Observation) : List Bucket :=
  obs.foldl (fun acc o => bucketInsert acc (keyOf o) o.temperature o.obs_date) bs

/-- The documented range of dates: years 2015 to 2020, months 1 to 12, days 1 to 31. -/
def Date.InRange (d : Date) : Prop :=
  2015 ≤ d.year ∧ d.year ≤ 2020 ∧ 1 ≤ d.month ∧ d.month ≤ 12 ∧ 1 ≤ d.day ∧ d.day ≤ 31

instance (d : Date) : Decidable d.InRange := by
  unfold Date.InRange
  infer_instance

/-- Chronological order of dates: by year, then month, then day. -/
def Date.before (a b : Date) : Prop :=
  a.year < b.year ∨ (a.year = b.year ∧ (a.month < b.month ∨ (a.month = b.month ∧ a.day < b.day)))

instance (a b : Date) : Decidable (a.before b) := by
  unfold Date.before
  infer_instance

/-- The date printed on a line of the daily report. -/
def AverageLine.date (l : AverageLine) : Date :=
  { year := l.year, month := l.month, day := l.day }

/-- The temperatures of the observations made on date `d`, in input order. -/
def temperaturesOn (d : Date) (obs : List Observation) : List ℚ :=
  (obs.filter (fun o => o.obs_date = d)).map Observation.temperature

/-- The entry of station `s` after the observations `obs`: the observations of that
station are applied one by one to the empty entry. -/
def stationEntry (s : Nat) (obs : List Observation) : ObservationExtreme :=
  (obs.filter (fun o => o.station_id = (s : Int))).foldl entryStep { min := none, max := none }

/-- An entry of station `s` is either empty or holds two observations of that station. -/
def EntryOf (s : Nat) (e : ObservationExtreme) : Prop :=
  (e.min = none ∧ e.max = none)
  ∨ ∃ mn mx, e.min = some mn ∧ e.max = some mx
      ∧ mn.station_id = (s : Int) ∧ mx.station_id = (s : Int)

/-- Mean correctness of the daily report for the input `obs`: the report is printed, it
has one line for each bucket reached from the list head, and for every such bucket, with
date `d`, the accumulated sum is the sum of the temperatures of the observations dated
`d`, the count is the number `k` of these observations, and the printed mean is that sum
divided by `k`. -/
def MeanCorrect (obs : List Observation) : Prop :=
  ∃ ns, dailyBuckets obs = some ns
    ∧ print_daily_averages obs = some (ns.map averageLine)
    ∧ ∀ n ∈ ns,
        n.value = (temperaturesOn n.date obs).sum
        ∧ n.no_of_observations = ((temperaturesOn n.date obs).length : Int)
        ∧ (averageLine n).average
            = (temperaturesOn n.date obs).sum / ((temperaturesOn n.date obs).length : ℚ)

/-- The documented range of station numbers: 1 to 250. -/
def Observation.StationInRange (o : Observation) : Prop :=
  1 ≤ o.station_id ∧ o.station_id ≤ 250

instance (o : Observation) : Decidable o.StationInRange := by
  unfold Observation.StationInRange
  infer_instance

/-- The array `extremes` of `print_station_extremes` after its first loop: the entries of
the tracker, indexed by station number. -/
def finalExtremes (obs : List Observation) : Option (List ObservationExtreme) :=
  extremesLoop (List.replicate (MAX_STATION_NUMBER + 1) { min := none, max := none }) obs

/-- The station number of the observation is an index of the array `extremes`. -/
def Observation.StationInBounds (o : Observation) : Prop :=
  0 ≤ o.station_id ∧ o.station_id ≤ 250

instance (o : Observation) : Decidable o.StationInBounds := by
  unfold Observation.StationInBounds
  infer_instance

/-- Chronological order of observations: lexicographic on year, month, day, hour and
minute. -/
def Observation.earlier (a b : Observation) : Prop :=
  a.obs_date.before b.obs_date
  ∨ (a.obs_date = b.obs_date ∧ (a.hour < b.hour ∨ (a.hour = b.hour ∧ a.minute < b.minute)))

instance (a b : Observation) : Decidable (a.earlier b) := by
  unfold Observation.earlier
  infer_instance

/-- A sequence of calls of `listSortedInsert`, each with its key and value, on the same
list object; the returned node pointers are not used. -/
def insertCalls : List Node → Option HashList → List (Int × ℚ) →
    Option (List Node × Option HashList)
  | heap, list, [] => some (heap, list)
  | heap, list, call :: rest =>
    match listSortedInsert heap list call.1 call.2 with
    | none => none
    | some (heap1, list1, _) => insertCalls heap1 list1 rest

/-- Some observation with key `k` arrives with a key strictly below the keys of all
earlier observations, or strictly above all of them. -/
def KeyEnters (k : Int) (obs : List Observation) : Prop :=
  ∃ pre o post, obs = pre ++ o :: post ∧ keyOf o = k
    ∧ ((∀ x ∈ pre, keyOf o < keyOf x) ∨ (∀ x ∈ pre, keyOf x < keyOf o))

/-- At the first occurrence of the date `d` in the input, its key is strictly below the
keys of all earlier observations, or strictly above all of them. -/
def FirstOccurrenceExtreme (d : Date) (obs : List Observation) : Prop :=
  ∃ pre o post, obs = pre ++ o :: post ∧ o.obs_date = d ∧ (∀ x ∈ pre, x.obs_date ≠ d)
    ∧ ((∀ x ∈ pre, keyOf o < keyOf x) ∨ (∀ x ∈ pre, keyOf x < keyOf o))

/-- A chain entry after a write of `f` through the pointer `a`. -/
def setAt (a : Nat) (f : Node → Node) (x : Nat × Node) : Nat × Node :=
  if x.1 = a then (x.1, f x.2) else x

/-- One round of the first loop of `print_daily_averages` on a represented chain: the
insertion returns a node, the assignment of the date is defined, the result is again a
represented chain, and its buckets are those of `bucketInsert`. -/
def InsertSimulates (heap : List Node) (l : HashList) (ns : List (Nat × Node))
    (key : Int) (value : ℚ) (date : Date) : Prop :=
  ∃ heap1 l1 r heap2 ns2,
    listSortedInsert heap (some l) key value = some (heap1, some l1, some r)
    ∧ update heap1 r (fun n => { n with date := date }) = some heap2
    ∧ Represents heap2 l1 ns2
    ∧ ns2.map (fun x => x.2.bucket)
        = bucketInsert (ns.map (fun x => x.2.bucket)) key value date

/-- The text `cs` consists of `width` digits that the digit loop of `strtol` reads as the
number `n`: whatever was accumulated before is shifted by `width` decimal places. -/
def FormatsAs (width : Nat) (n : Int) (cs : List Char) : Prop :=
  cs.length = width ∧ (∀ c ∈ cs, c.isDigit = true) ∧
    ∀ acc : Int, ∀ rest : List Char,
      digitsValue acc (cs ++ rest) = digitsValue (acc * 10 ^ width + n) rest

/-- The bucket `b` after an observation with key `key`: a bucket of that key absorbs the
value and takes the date, any other bucket stays. -/
def touch (key : Int) (value : ℚ) (date : Date) (b : Bucket) : Bucket :=
  if key = b.key then { b with count := b.count + 1, value := b.value + value, date := date }
  else b

/-- The temperatures of the observations whose key is `k`, in input order. -/
def keyTemps (k : Int) (obs : List Observation) : List ℚ :=
  (obs.filter (fun o => keyOf o = k)).map Observation.temperature

/-- The invariant of the insertion loop, for the buckets `bs` of the chain and the
observations `done` inserted so far: keys ascend strictly; every bucket carries a date
with its key, taken from an observation, and the sum and number of the observations of
its key; every key seen lies between the first and the last key of the chain. -/
def RunInv (bs : List Bucket) (done : List Observation) : Prop :=
  (bs.map Bucket.key).Pairwise (· < ·)
  ∧ (∀ b ∈ bs, dateKey b.date = some b.key
      ∧ (∃ o ∈ done, o.obs_date = b.date)
      ∧ b.value = (keyTemps b.key done).sum
      ∧ b.count = ((keyTemps b.key done).length : Int))
  ∧ (∀ o ∈ done, ∃ h t, bs.head? = some h ∧ bs.getLast? = some t
      ∧ h.key ≤ keyOf o ∧ keyOf o ≤ t.key)

/-! ## The heap and the chain -/

theorem lookup_lt {heap : List Node} {a : Nat} {n : Node} (h : heap[a]? = some n) :
    a < heap.length := by
  by_contra hlt
  rw [List.getElem?_eq_none (Nat.le_of_not_lt hlt)] at h
  cases h

theorem lookup_append {heap : List Node} {a : Nat} {n : Node} (x : Node)
    (h : heap[a]? = some n) : (heap ++ [x])[a]? = some n := by
  rw [List.getElem?_append_left (lookup_lt h)]
  exact h

theorem lookup_set (heap : List Node) (a b : Nat) (x : Node) :
    (heap.set a x)[b]? = if a = b then (if a < heap.length then some x else none) else heap[b]? := by
  by_cases hab : a = b
  · subst hab
    by_cases hlt : a < heap.length
    · simp [hlt]
    · simp [hlt, Nat.le_of_not_lt hlt]
  · simp [hab, List.getElem?_set_ne hab]

theorem update_eq {heap heap1 : List Node} {a : Nat} {f : Node → Node}
    (h : update heap a f = some heap1) :
    ∃ n, heap[a]? = some n ∧ heap1 = heap.set a (f n) := by
  unfold update at h
  cases hn : heap[a]? with
  | none => rw [hn] at h; cases h
  | some n =>
    rw [hn] at h
    exact ⟨n, rfl, (Option.some.inj h).symm⟩

theorem update_of_lookup {heap : List Node} {a : Nat} {n : Node} (f : Node → Node)
    (h : heap[a]? = some n) : update heap a f = some (heap.set a (f n)) := by
  unfold update
  rw [h]

theorem isChain_lookup {heap : List Node} :
    ∀ (ns : List (Nat × Node)) (p : Option Nat), IsChain heap p ns →
      ∀ x ∈ ns, heap[x.1]? = some x.2 := by
  intro ns
  induction ns with
  | nil => intro p _ x hx; cases hx
  | cons y rest ih =>
    intro p h x hx
    rcases List.mem_cons.1 hx with rfl | hx
    · exact h.2.1
    · exact ih _ h.2.2 x hx

theorem walk_of_isChain {heap : List Node} :
    ∀ (ns : List (Nat × Node)) (p : Option Nat) (fuel : Nat), IsChain heap p ns →
      ns.length ≤ fuel → walk fuel heap p = some (ns.map Prod.snd) := by
  intro ns
  induction ns with
  | nil =>
    intro p fuel h _
    have hp : p = none := h
    subst hp
    cases fuel <;> rfl
  | cons y rest ih =>
    intro p fuel h hfuel
    obtain ⟨hp, hy, hrest⟩ := h
    subst hp
    cases fuel with
    | zero => simp at hfuel
    | succ fuel =>
      have hlen : rest.length ≤ fuel := by simpa using hfuel
      simp only [walk, hy, ih _ fuel hrest hlen, List.map_cons]

theorem isChain_append {heap : List Node} (x : Node) :
    ∀ (ns : List (Nat × Node)) (p : Option Nat), IsChain heap p ns →
      IsChain (heap ++ [x]) p ns := by
  intro ns
  induction ns with
  | nil => intro p h; exact h
  | cons y rest ih =>
    intro p h
    exact ⟨h.1, lookup_append x h.2.1, ih _ h.2.2⟩

/-- A write through a pointer that keeps the `next` link keeps the chain; the node
stored at that address is replaced in the chain. -/
theorem isChain_set {heap : List Node} {a : Nat} {n : Node} (f : Node → Node)
    (ha : heap[a]? = some n) (hf : ∀ m, (f m).next = m.next) :
    ∀ (ns : List (Nat × Node)) (p : Option Nat), IsChain heap p ns →
      IsChain (heap.set a (f n)) p
        (ns.map (setAt a f)) := by
  intro ns
  induction ns with
  | nil => intro p h; exact h
  | cons y rest ih =>
    intro p h
    obtain ⟨hp, hy, hrest⟩ := h
    by_cases hya : y.1 = a
    · have hn : y.2 = n := by
        rw [hya, ha] at hy
        exact (Option.some.inj hy).symm
      simp only [List.map_cons, setAt, hya, if_true]
      refine ⟨by rw [hp, hya], ?_, ?_⟩
      · show (heap.set a (f n))[a]? = some (f y.2)
        rw [lookup_set, if_pos rfl, if_pos (lookup_lt ha), hn]
      · show IsChain _ (f y.2).next _
        rw [hf]
        exact ih _ hrest
    · simp only [List.map_cons, setAt, hya, if_false]
      refine ⟨hp, ?_, ih _ hrest⟩
      rw [lookup_set, if_neg (fun h => hya h.symm)]
      exact hy

theorem map_if_of_not_mem {a : Nat} (f : Node → Node) :
    ∀ (ns : List (Nat × Node)), a ∉ ns.map Prod.fst →
      ns.map (setAt a f) = ns := by
  intro ns
  induction ns with
  | nil => intro _; rfl
  | cons y rest ih =>
    intro h
    have h1 : y.1 ≠ a := fun e => h (by simp [e])
    have h2 : a ∉ rest.map Prod.fst := fun e => h (by simp at e ⊢; exact Or.inr e)
    simp only [List.map_cons, setAt, h1, if_false]
    exact congrArg (List.cons y) (ih h2)

/-- The node that `listSortedInsert` builds: a fresh node with key, value and a count
of one. -/
theorem alloc_update (heap : List Node) (prev next : Option Nat) (f : Node → Node) :
    update (nodeCreate heap prev next).1 (nodeCreate heap prev next).2 f
      = some (heap ++ [f { key := 0, value := 0, date := { year := 0, month := 0, day := 0 },
                           no_of_observations := 0, prev := prev, next := next }]) := by
  simp [update, nodeCreate]

theorem update_append_left {heap : List Node} {a : Nat} {n : Node} (x : Node)
    (f : Node → Node) (h : heap[a]? = some n) :
    update (heap ++ [x]) a f = some (heap.set a (f n) ++ [x]) := by
  rw [update_of_lookup f (lookup_append x h), List.set_append_left _ _ (lookup_lt h)]

theorem update_append_right (heap : List Node) (x : Node) (f : Node → Node) :
    update (heap ++ [x]) heap.length f = some (heap ++ [f x]) := by
  simp [update]

theorem listSortedInsert_empty (heap : List Node) (l : HashList) (key : Int) (value : ℚ)
    (hh : l.head = none) :
    listSortedInsert heap (some l) key value
      = some (heap ++ [{ key := key, value := value,
                          date := { year := 0, month := 0, day := 0 },
                          no_of_observations := 1, prev := none, next := none }],
              some { head := some heap.length, tail := some heap.length },
              some heap.length) := by
  simp [listSortedInsert, hh, update, nodeCreate]

theorem listSortedInsert_head (heap : List Node) (l : HashList) (key : Int) (value : ℚ)
    {h : Nat} {hn : Node} (hh : l.head = some h) (hl : heap[h]? = some hn)
    (hk : key < hn.key) :
    listSortedInsert heap (some l) key value
      = some (heap.set h { hn with prev := some heap.length }
                ++ [{ key := key, value := value,
                      date := { year := 0, month := 0, day := 0 },
                      no_of_observations := 1, prev := none, next := some h }],
              some { l with head := some heap.length },
              some heap.length) := by
  simp only [listSortedInsert, hh, hl, if_pos hk]
  rw [alloc_update]
  simp only [update_append_left _ _ hl]
  rfl

theorem listSortedInsert_tail (heap : List Node) (l : HashList) (key : Int) (value : ℚ)
    {h t : Nat} {hn tn : Node} (hh : l.head = some h) (hl : heap[h]? = some hn)
    (hk : ¬ key < hn.key) (ht : l.tail = some t) (htl : heap[t]? = some tn)
    (hkt : key > tn.key) :
    listSortedInsert heap (some l) key value
      = some (heap.set t { tn with next := some heap.length }
                ++ [{ key := key, value := value,
                      date := { year := 0, month := 0, day := 0 },
                      no_of_observations := 1, prev := some t, next := none }],
              some { l with tail := some heap.length },
              some heap.length) := by
  simp only [listSortedInsert, hh, hl, if_neg hk, ht, htl, if_pos hkt]
  rw [alloc_update]
  simp only [update_append_left _ _ htl]
  rfl

theorem listSortedInsert_scan (heap : List Node) (l : HashList) (key : Int) (value : ℚ)
    {h t : Nat} {hn tn : Node} (hh : l.head = some h) (hl : heap[h]? = some hn)
    (hk : ¬ key < hn.key) (ht : l.tail = some t) (htl : heap[t]? = some tn)
    (hkt : ¬ key > tn.key) {heap1 : List Node} {ret : Option Nat}
    (hs : scanLoop key value heap.length heap (some h) = some (heap1, ret)) :
    listSortedInsert heap (some l) key value = some (heap1, some l, ret) := by
  simp only [listSortedInsert, hh, hl, if_neg hk, ht, htl, if_neg hkt, hs]

theorem scanLoop_equal (heap : List Node) (key : Int) (value : ℚ) (fuel : Nat)
    {a : Nat} {n : Node} (ha : heap[a]? = some n) (hk : key = n.key) :
    scanLoop key value (fuel + 1) heap (some a)
      = some (heap.set a { n with no_of_observations := n.no_of_observations + 1,
                                  value := n.value + value }, some a) := by
  simp only [scanLoop, ha, if_pos hk]

theorem scanLoop_less (heap : List Node) (key : Int) (value : ℚ) (fuel : Nat)
    {a : Nat} {n : Node} (ha : heap[a]? = some n) (hk : key ≠ n.key) (hlt : key < n.key) :
    scanLoop key value (fuel + 1) heap (some a)
      = some (heap.set a { n with prev := some heap.length }
                ++ [{ key := key, value := value,
                      date := { year := 0, month := 0, day := 0 },
                      no_of_observations := 1, prev := n.prev, next := some a }],
              some heap.length) := by
  simp only [scanLoop, ha, if_neg hk, if_pos hlt]
  rw [alloc_update]
  simp only [update_append_left _ _ ha]
  rfl

theorem scanLoop_skip {heap : List Node} (key : Int) (value : ℚ)
    (suf : List (Nat × Node)) :
    ∀ (pre : List (Nat × Node)) (p : Option Nat) (fuel : Nat),
      IsChain heap p (pre ++ suf) → (∀ x ∈ pre, x.2.key < key) →
      ∃ q, IsChain heap q suf ∧
        scanLoop key value (fuel + pre.length) heap p = scanLoop key value fuel heap q := by
  intro pre
  induction pre with
  | nil =>
    intro p fuel h _
    exact ⟨p, h, rfl⟩
  | cons y rest ih =>
    intro p fuel h hlt
    obtain ⟨hp, hy, hrest⟩ := h
    have hy1 : y.2.key < key := hlt y (List.mem_cons_self _ _)
    obtain ⟨q, hq, hscan⟩ := ih _ fuel hrest (fun x hx => hlt x (List.mem_cons_of_mem _ hx))
    refine ⟨q, hq, ?_⟩
    have e : fuel + (y :: rest).length = (fuel + rest.length) + 1 := by
      simp [Nat.add_assoc]
    rw [e, hp]
    simp only [scanLoop, hy, if_neg (ne_of_gt hy1), if_neg (not_lt.2 (le_of_lt hy1))]
    exact hscan

/-- The first node of a chain whose key is not below `key`, when there is one. -/
theorem split_at_key (key : Int) :
    ∀ (ns : List (Nat × Node)), (∃ x ∈ ns, key ≤ x.2.key) →
      ∃ pre a n rest, ns = pre ++ (a, n) :: rest ∧ (∀ x ∈ pre, x.2.key < key)
        ∧ key ≤ n.key := by
  intro ns
  induction ns with
  | nil => rintro ⟨x, hx, _⟩; cases hx
  | cons y rest ih =>
    rintro ⟨x, hx, hkx⟩
    by_cases hy : key ≤ y.2.key
    · exact ⟨[], y.1, y.2, rest, rfl, fun x hx => absurd hx (List.not_mem_nil x), hy⟩
    · have hx1 : x ∈ rest := by
        rcases List.mem_cons.1 hx with rfl | h
        · exact absurd hkx hy
        · exact h
      obtain ⟨pre, a, n, rest1, he, hpre, hn⟩ := ih ⟨x, hx1, hkx⟩
      refine ⟨y :: pre, a, n, rest1, by rw [he]; rfl, ?_, hn⟩
      intro z hz
      rcases List.mem_cons.1 hz with rfl | h
      · exact not_le.1 hy
      · exact hpre z h

theorem bucketScan_split (key : Int) (value : ℚ) (date : Date) (a : Nat) (n : Node)
    (rest : List (Nat × Node)) :
    ∀ (pre : List (Nat × Node)), (∀ x ∈ pre, x.2.key < key) → key ≤ n.key →
      bucketScan key value date ((pre ++ (a, n) :: rest).map (fun x => x.2.bucket))
        = pre.map (fun x => x.2.bucket)
          ++ (if key = n.key then
                { n.bucket with count := n.bucket.count + 1,
                                value := n.bucket.value + value, date := date }
              else n.bucket) :: rest.map (fun x => x.2.bucket) := by
  intro pre
  induction pre with
  | nil =>
    intro _ hn
    by_cases hk : key = n.key
    · simp [bucketScan, Node.bucket, hk]
    · have hlt : key < n.key := lt_of_le_of_ne hn hk
      simp [bucketScan, Node.bucket, hk, hlt]
  | cons y pre1 ih =>
    intro hpre hn
    have hy : y.2.key < key := hpre y (List.mem_cons_self _ _)
    have ih1 := ih (fun x hx => hpre x (List.mem_cons_of_mem _ hx)) hn
    simp only [List.cons_append, List.map_cons, bucketScan]
    rw [if_neg (by simpa [Node.bucket] using ne_of_gt hy),
      if_neg (by simpa [Node.bucket] using le_of_lt hy)]
    exact congrArg (List.cons y.2.bucket) ih1

theorem setAt_fst (a : Nat) (f : Node → Node) (x : Nat × Node) : (setAt a f x).1 = x.1 := by
  unfold setAt
  split <;> rfl

theorem map_setAt_fst (a : Nat) (f : Node → Node) (ns : List (Nat × Node)) :
    (ns.map (setAt a f)).map Prod.fst = ns.map Prod.fst := by
  rw [List.map_map]
  exact List.map_congr_left (fun x _ => setAt_fst a f x)

theorem getLast_setAt_fst (a : Nat) (f : Node → Node) (ns : List (Nat × Node)) :
    (ns.map (setAt a f)).getLast?.map Prod.fst = ns.getLast?.map Prod.fst := by
  rw [List.getLast?_map, Option.map_map]
  cases ns.getLast? with
  | none => rfl
  | some x => exact congrArg some (setAt_fst a f x)

theorem map_setAt_bucket (a : Nat) (f : Node → Node) (hf : ∀ m, (f m).bucket = m.bucket)
    (ns : List (Nat × Node)) :
    (ns.map (setAt a f)).map (fun x => x.2.bucket) = ns.map (fun x => x.2.bucket) := by
  rw [List.map_map]
  apply List.map_congr_left
  intro x _
  show (setAt a f x).2.bucket = x.2.bucket
  unfold setAt
  split
  · exact hf x.2
  · rfl

theorem represents_set {heap : List Node} {l : HashList} {ns : List (Nat × Node)}
    {a : Nat} {n : Node} (f : Node → Node) (h : Represents heap l ns)
    (ha : heap[a]? = some n) (hf : ∀ m, (f m).next = m.next) :
    Represents (heap.set a (f n)) l (ns.map (setAt a f)) :=
  ⟨isChain_set f ha hf ns _ h.1, by rw [getLast_setAt_fst]; exact h.2.1,
    by rw [map_setAt_fst]; exact h.2.2⟩

theorem represents_append {heap : List Node} {l : HashList} {ns : List (Nat × Node)}
    (x : Node) (h : Represents heap l ns) : Represents (heap ++ [x]) l ns :=
  ⟨isChain_append x ns _ h.1, h.2.1, h.2.2⟩

theorem represents_addr_lt {heap : List Node} {l : HashList} {ns : List (Nat × Node)}
    (h : Represents heap l ns) : ∀ a ∈ ns.map Prod.fst, a < heap.length := by
  intro a ha
  obtain ⟨x, hx, rfl⟩ := List.mem_map.1 ha
  exact lookup_lt (isChain_lookup ns _ h.1 x hx)

theorem lookup_last (heap : List Node) (x : Node) : (heap ++ [x])[heap.length]? = some x := by
  simp

theorem represents_cons {heap : List Node} {l : HashList} {ns : List (Nat × Node)}
    {a : Nat} {x : Node} (h : Represents heap l ns) (hne : ns ≠ [])
    (ha : heap[a]? = some x) (hx : x.next = l.head) (hnew : a ∉ ns.map Prod.fst) :
    Represents heap { l with head := some a } ((a, x) :: ns) := by
  refine ⟨⟨rfl, ha, ?_⟩, ?_, ?_⟩
  · show IsChain heap x.next ns
    rw [hx]; exact h.1
  · show l.tail = _
    rw [h.2.1]
    cases ns with
    | nil => exact absurd rfl hne
    | cons y rest => rw [List.getLast?_cons_cons]
  · rw [List.map_cons, List.nodup_cons]
    exact ⟨hnew, h.2.2⟩

theorem isChain_snoc {heap : List Node} {t a : Nat} {tn x : Node}
    (ha : heap[a]? = some x) (hx : x.next = none) :
    ∀ (init : List (Nat × Node)) (p : Option Nat),
      IsChain heap p (init ++ [(t, tn)]) →
      ((init ++ [(t, tn)]).map Prod.fst).Nodup → a ∉ (init ++ [(t, tn)]).map Prod.fst →
      IsChain (heap.set t { tn with next := some a }) p
        (init ++ [(t, { tn with next := some a }), (a, x)]) := by
  intro init
  induction init with
  | nil =>
    intro p h _ hnew
    obtain ⟨hp, ht, _⟩ := h
    have hat : t ≠ a := by
      intro e
      apply hnew
      simp [e]
    refine ⟨hp, ?_, rfl, ?_, ?_⟩
    · show (heap.set t _)[t]? = _
      rw [lookup_set, if_pos rfl, if_pos (lookup_lt ht)]
    · show (heap.set t _)[a]? = _
      rw [lookup_set, if_neg hat]
      exact ha
    · show x.next = none
      exact hx
  | cons y rest ih =>
    intro p h hnd hnew
    obtain ⟨hp, hy, hrest⟩ := h
    have hnd1 : y.1 ∉ (rest ++ [(t, tn)]).map Prod.fst ∧
        ((rest ++ [(t, tn)]).map Prod.fst).Nodup := by
      simpa [List.nodup_cons] using hnd
    have hyt : t ≠ y.1 := by
      intro e
      apply hnd1.1
      simp [e]
    have hnew1 : a ∉ (rest ++ [(t, tn)]).map Prod.fst := by
      intro e
      apply hnew
      rw [List.cons_append, List.map_cons]
      exact List.mem_cons_of_mem _ e
    refine ⟨hp, ?_, ih _ hrest hnd1.2 hnew1⟩
    show (heap.set t _)[y.1]? = _
    rw [lookup_set, if_neg hyt]
    exact hy

theorem represents_snoc {heap : List Node} {l : HashList} {init : List (Nat × Node)}
    {t a : Nat} {tn x : Node} (h : Represents heap l (init ++ [(t, tn)]))
    (ha : heap[a]? = some x) (hx : x.next = none)
    (hnew : a ∉ (init ++ [(t, tn)]).map Prod.fst) :
    Represents (heap.set t { tn with next := some a }) { l with tail := some a }
      (init ++ [(t, { tn with next := some a }), (a, x)]) := by
  refine ⟨isChain_snoc ha hx init _ h.1 h.2.2 hnew, ?_, ?_⟩
  · show some a = _
    have e : init ++ [(t, ({ tn with next := some a } : Node)), (a, x)]
        = (init ++ [(t, { tn with next := some a })]) ++ [(a, x)] := by simp
    rw [e, List.getLast?_append]
    rfl
  · have h1 := h.2.2
    simp only [List.map_append, List.map_cons, List.map_nil] at h1 hnew ⊢
    have e : List.map Prod.fst init ++ [t, a] = (List.map Prod.fst init ++ [t]) ++ [a] := by
      simp
    rw [e]
    exact List.Nodup.append h1 (List.nodup_singleton a)
      (by
        intro z hz1 hz2
        rw [List.mem_singleton] at hz2
        exact hnew (hz2 ▸ hz1))

theorem bucketInsert_nil (key : Int) (value : ℚ) (date : Date) :
    bucketInsert [] key value date
      = [{ key := key, value := value, date := date, count := 1 }] := rfl

theorem bucketInsert_head (b : Bucket) (bs : List Bucket) (key : Int) (value : ℚ)
    (date : Date) (hk : key < b.key) :
    bucketInsert (b :: bs) key value date
      = { key := key, value := value, date := date, count := 1 } :: b :: bs := by
  cases hl : (b :: bs).getLast? with
  | none => simp at hl
  | some t => simp only [bucketInsert, List.head?_cons, hl, if_pos hk]

theorem bucketInsert_tail (b t : Bucket) (bs : List Bucket) (key : Int) (value : ℚ)
    (date : Date) (hk : ¬ key < b.key) (hl : (b :: bs).getLast? = some t)
    (hkt : key > t.key) :
    bucketInsert (b :: bs) key value date
      = (b :: bs) ++ [{ key := key, value := value, date := date, count := 1 }] := by
  simp only [bucketInsert, List.head?_cons, hl, if_neg hk, if_pos hkt]

theorem bucketInsert_scan (b t : Bucket) (bs : List Bucket) (key : Int) (value : ℚ)
    (date : Date) (hk : ¬ key < b.key) (hl : (b :: bs).getLast? = some t)
    (hkt : ¬ key > t.key) :
    bucketInsert (b :: bs) key value date = bucketScan key value date (b :: bs) := by
  simp only [bucketInsert, List.head?_cons, hl, if_neg hk, if_neg hkt]

theorem simulates_empty (heap : List Node) (l : HashList) (key : Int) (value : ℚ)
    (date : Date) (h : Represents heap l []) : InsertSimulates heap l [] key value date := by
  have hh : l.head = none := h.1
  refine ⟨_, _, _, _, [(heap.length, _)], listSortedInsert_empty heap l key value hh,
    update_append_right heap _ _, ⟨⟨rfl, lookup_last heap _, rfl⟩, rfl, ?_⟩, rfl⟩
  simp

theorem simulates_head (heap : List Node) (l : HashList) (key : Int) (value : ℚ)
    (date : Date) (y : Nat × Node) (rest : List (Nat × Node))
    (h : Represents heap l (y :: rest)) (hk : key < y.2.key) :
    InsertSimulates heap l (y :: rest) key value date := by
  obtain ⟨hh, hy, _⟩ := h.1
  have hlen : (heap.set y.1 { y.2 with prev := some heap.length }).length = heap.length :=
    List.length_set _ _ _
  have hup := update_append_right (heap.set y.1 { y.2 with prev := some heap.length })
    { key := key, value := value, date := { year := 0, month := 0, day := 0 },
      no_of_observations := 1, prev := none, next := some y.1 }
    (fun n => { n with date := date })
  rw [hlen] at hup
  have hrep := represents_append
    ({ key := key, value := value, date := date,
       no_of_observations := 1, prev := none, next := some y.1 } : Node)
    (represents_set (fun m => { m with prev := some heap.length }) h hy (fun _ => rfl))
  have hnew : heap.length ∉ ((y :: rest).map (setAt y.1
      (fun m => { m with prev := some heap.length }))).map Prod.fst := by
    rw [map_setAt_fst]
    intro hmem
    exact absurd (represents_addr_lt h _ hmem) (lt_irrefl _)
  have hlook := lookup_last (heap.set y.1 { y.2 with prev := some heap.length })
    ({ key := key, value := value, date := date,
       no_of_observations := 1, prev := none, next := some y.1 } : Node)
  rw [hlen] at hlook
  refine ⟨_, _, _, _, _, listSortedInsert_head heap l key value hh hy hk, hup,
    represents_cons hrep (by simp) hlook hh.symm hnew, ?_⟩
  rw [List.map_cons, map_setAt_bucket y.1 (fun m => { m with prev := some heap.length })
    (fun _ => rfl)]
  rw [List.map_cons, bucketInsert_head _ _ _ _ _ hk]
  rfl

theorem simulates_tail (heap : List Node) (l : HashList) (key : Int) (value : ℚ)
    (date : Date) (y : Nat × Node) (rest : List (Nat × Node)) (t : Nat) (tn : Node)
    (h : Represents heap l (y :: rest)) (hk : ¬ key < y.2.key)
    (hlast : (y :: rest).getLast? = some (t, tn)) (hkt : key > tn.key) :
    InsertSimulates heap l (y :: rest) key value date := by
  obtain ⟨hh, hy, _⟩ := h.1
  have htail : l.tail = some t := by rw [h.2.1, hlast]; rfl
  have ht : heap[t]? = some tn :=
    isChain_lookup _ _ h.1 (t, tn) (List.mem_of_getLast?_eq_some hlast)
  obtain ⟨init, hinit⟩ := List.getLast?_eq_some_iff.1 hlast
  have hlen : (heap.set t { tn with next := some heap.length }).length = heap.length :=
    List.length_set _ _ _
  have hup := update_append_right (heap.set t { tn with next := some heap.length })
    { key := key, value := value, date := { year := 0, month := 0, day := 0 },
      no_of_observations := 1, prev := some t, next := none }
    (fun n => { n with date := date })
  rw [hlen] at hup
  have hnew : heap.length ∉ (init ++ [(t, tn)]).map Prod.fst := by
    rw [← hinit]
    intro hmem
    exact absurd (represents_addr_lt h _ hmem) (lt_irrefl _)
  have hrep0 : Represents (heap ++ [(⟨key, value, date, 1, some t, none⟩ : Node)]) l
      (init ++ [(t, tn)]) := by
    rw [← hinit]
    exact represents_append _ h
  have hrep := represents_snoc hrep0 (lookup_last heap _) rfl hnew
  rw [List.set_append_left _ _ (lookup_lt ht)] at hrep
  refine ⟨_, _, _, _, _, listSortedInsert_tail heap l key value hh hy hk htail ht hkt, hup,
    hrep, ?_⟩
  have hl : ((y :: rest).map (fun x => x.2.bucket)).getLast? = some tn.bucket := by
    rw [List.getLast?_map, hlast]; rfl
  rw [List.map_cons] at hl
  have hb := bucketInsert_tail _ _ _ key value date hk hl hkt
  have e : y.2.bucket :: rest.map (fun x => x.2.bucket)
      = (init ++ [(t, tn)]).map (fun x => x.2.bucket) := by rw [← hinit]; rfl
  rw [e] at hb
  rw [hinit, hb]
  simp [Node.bucket]

theorem nodup_length_le (N : Nat) (l : List Nat) (hnd : l.Nodup) (hlt : ∀ a ∈ l, a < N) :
    l.length ≤ N := by
  have hsub : l ⊆ List.range N := fun a ha => List.mem_range.2 (hlt a ha)
  have := (List.subperm_of_subset hnd hsub).length_le
  simpa using this

theorem simulates_scan (heap : List Node) (l : HashList) (key : Int) (value : ℚ)
    (date : Date) (y : Nat × Node) (rest : List (Nat × Node)) (t : Nat) (tn : Node)
    (h : Represents heap l (y :: rest)) (hk : ¬ key < y.2.key)
    (hlast : (y :: rest).getLast? = some (t, tn)) (hkt : ¬ key > tn.key) :
    InsertSimulates heap l (y :: rest) key value date := by
  obtain ⟨hh, hy, _⟩ := h.1
  have htail : l.tail = some t := by rw [h.2.1, hlast]; rfl
  have ht : heap[t]? = some tn :=
    isChain_lookup _ _ h.1 (t, tn) (List.mem_of_getLast?_eq_some hlast)
  have hl : ((y :: rest).map (fun x => x.2.bucket)).getLast? = some tn.bucket := by
    rw [List.getLast?_map, hlast]; rfl
  rw [List.map_cons] at hl
  obtain ⟨pre, a, n, rest1, hsplit, hpre, hn⟩ := split_at_key key (y :: rest)
    ⟨(t, tn), List.mem_of_getLast?_eq_some hlast, not_lt.1 hkt⟩
  have hlenle : (y :: rest).length ≤ heap.length := by
    have := nodup_length_le heap.length _ h.2.2 (represents_addr_lt h)
    simpa using this
  have hprelt : pre.length < heap.length := by
    have e : (y :: rest).length = pre.length + (rest1.length + 1) := by
      rw [hsplit]; simp
    omega
  obtain ⟨fuel, hfuel⟩ : ∃ fuel, heap.length = (fuel + 1) + pre.length :=
    ⟨heap.length - pre.length - 1, by omega⟩
  have hchain : IsChain heap l.head (pre ++ (a, n) :: rest1) := hsplit ▸ h.1
  obtain ⟨q, hq, hskip⟩ := scanLoop_skip key value ((a, n) :: rest1) pre l.head (fuel + 1)
    hchain hpre
  obtain ⟨hqa, ha, _⟩ := hq
  rw [← hfuel, hh, hqa] at hskip
  dsimp only at hskip ha
  have hnd : (pre.map Prod.fst ++ a :: rest1.map Prod.fst).Nodup := by
    have := h.2.2
    rw [hsplit] at this
    simpa using this
  have hapre : a ∉ pre.map Prod.fst := fun hmem =>
    (List.nodup_append.1 hnd).2.2 hmem (List.mem_cons_self _ _)
  have harest : a ∉ rest1.map Prod.fst :=
    (List.nodup_cons.1 (List.nodup_append.1 hnd).2.1).1
  have hb := bucketInsert_scan _ _ _ key value date hk hl hkt
  have e : y.2.bucket :: rest.map (fun x => x.2.bucket)
      = (pre ++ (a, n) :: rest1).map (fun x => x.2.bucket) := by rw [← hsplit]; rfl
  rw [e, bucketScan_split key value date a n rest1 pre hpre hn] at hb
  by_cases hkn : key = n.key
  · rw [scanLoop_equal heap key value fuel ha hkn] at hskip
    have hrep := represents_set
      (fun m => { m with no_of_observations := m.no_of_observations + 1,
                         value := m.value + value, date := date }) h ha (fun _ => rfl)
    have hup : update (heap.set a { n with no_of_observations := n.no_of_observations + 1,
                                           value := n.value + value }) a
        (fun m => { m with date := date })
        = some (heap.set a { n with no_of_observations := n.no_of_observations + 1,
                                    value := n.value + value, date := date }) := by
      rw [update_of_lookup _ (by rw [lookup_set, if_pos rfl, if_pos (lookup_lt ha)]),
        List.set_set]
    refine ⟨_, _, _, _, _,
      listSortedInsert_scan heap l key value hh hy hk htail ht hkt hskip, hup, hrep, ?_⟩
    rw [hsplit, hb, if_pos hkn, List.map_append, List.map_cons,
      map_if_of_not_mem _ _ hapre, map_if_of_not_mem _ _ harest]
    simp [setAt, Node.bucket]
  · rw [scanLoop_less heap key value fuel ha hkn (lt_of_le_of_ne hn hkn)] at hskip
    have hlen : (heap.set a { n with prev := some heap.length }).length = heap.length :=
      List.length_set _ _ _
    have hup := update_append_right (heap.set a { n with prev := some heap.length })
      { key := key, value := value, date := { year := 0, month := 0, day := 0 },
        no_of_observations := 1, prev := n.prev, next := some a }
      (fun n => { n with date := date })
    rw [hlen] at hup
    have hrep := represents_append
      ({ key := key, value := value, date := date,
         no_of_observations := 1, prev := n.prev, next := some a } : Node)
      (represents_set (fun m => { m with prev := some heap.length }) h ha (fun _ => rfl))
    refine ⟨_, _, _, _, _,
      listSortedInsert_scan heap l key value hh hy hk htail ht hkt hskip, hup, hrep, ?_⟩
    rw [map_setAt_bucket a (fun m => { m with prev := some heap.length }) (fun _ => rfl),
      hsplit, hb, if_neg hkn]
    simp

/-- One round of the first loop of `print_daily_averages` acts on the represented chain
as `bucketInsert` acts on its buckets. -/
theorem insert_simulates (heap : List Node) (l : HashList) (ns : List (Nat × Node))
    (key : Int) (value : ℚ) (date : Date) (h : Represents heap l ns) :
    InsertSimulates heap l ns key value date := by
  cases ns with
  | nil => exact simulates_empty heap l key value date h
  | cons y rest =>
    by_cases hk : key < y.2.key
    · exact simulates_head heap l key value date y rest h hk
    · cases hlast : (y :: rest).getLast? with
      | none => simp at hlast
      | some x =>
        by_cases hkt : key > x.2.key
        · exact simulates_tail heap l key value date y rest x.1 x.2 h hk hlast hkt
        · exact simulates_scan heap l key value date y rest x.1 x.2 h hk hlast hkt

/-! ## The date key -/

theorem formatsAs_two (a b : Char) (ha : a.isDigit = true) (hb : b.isDigit = true) (n : Int)
    (hn : ((a.toNat : Int) - 48) * 10 + ((b.toNat : Int) - 48) = n) :
    FormatsAs 2 n [a, b] := by
  refine ⟨rfl, ?_, ?_⟩
  · intro c hc
    simp at hc
    rcases hc with rfl | rfl <;> assumption
  · intro acc rest
    simp only [List.cons_append, List.nil_append, digitsValue, ha, hb, if_true]
    congr 1
    rw [← hn]; ring

theorem formatsAs_four (a b c d : Char) (ha : a.isDigit = true) (hb : b.isDigit = true)
    (hc : c.isDigit = true) (hd : d.isDigit = true) (n : Int)
    (hn : ((a.toNat : Int) - 48) * 1000 + ((b.toNat : Int) - 48) * 100
      + ((c.toNat : Int) - 48) * 10 + ((d.toNat : Int) - 48) = n) :
    FormatsAs 4 n [a, b, c, d] := by
  refine ⟨rfl, ?_, ?_⟩
  · intro x hx
    simp at hx
    rcases hx with rfl | rfl | rfl | rfl <;> assumption
  · intro acc rest
    simp only [List.cons_append, List.nil_append, digitsValue, ha, hb, hc, hd, if_true]
    congr 1
    rw [← hn]; ring

theorem formatInt_two (n : Int) (h1 : 1 ≤ n) (h2 : n ≤ 31) : FormatsAs 2 n (formatInt 2 n) := by
  interval_cases n <;>
    exact formatsAs_two _ _ (by decide) (by decide) _ (by decide)

theorem formatInt_four (n : Int) (h1 : 2015 ≤ n) (h2 : n ≤ 2020) :
    FormatsAs 4 n (formatInt 4 n) ∧ (formatInt 4 n).head? = some '2' := by
  interval_cases n <;>
    exact ⟨formatsAs_four _ _ _ _ (by decide) (by decide) (by decide) (by decide) _ (by decide),
      by decide⟩

theorem strtol_digit_two (cs : List Char) : strtol ('2' :: cs) = digitsValue 0 ('2' :: cs) := by
  have h : ('2' :: cs).dropWhile Char.isWhitespace = '2' :: cs := by
    rw [List.dropWhile_cons_of_neg (by decide)]
  unfold strtol
  rw [h]
  split
  · rename_i heq; exact absurd (List.cons.inj heq).1 (by decide)
  · rename_i heq; exact absurd (List.cons.inj heq).1 (by decide)
  · rfl

/-- Inside the documented range the key of a date is `year * 10000 + month * 100 + day`. -/
theorem dateKey_inRange (d : Date) (h : d.InRange) :
    dateKey d = some (d.year * 10000 + d.month * 100 + d.day) := by
  obtain ⟨hy1, hy2, hm1, hm2, hd1, hd2⟩ := h
  obtain ⟨⟨hylen, _, hyval⟩, hyhead⟩ := formatInt_four d.year hy1 hy2
  obtain ⟨hmlen, _, hmval⟩ := formatInt_two d.month hm1 (by omega)
  obtain ⟨hdlen, _, hdval⟩ := formatInt_two d.day hd1 hd2
  have hlen : (formatInt 4 d.year ++ formatInt 2 d.month ++ formatInt 2 d.day).length + 1 ≤ 9 := by
    simp [hylen, hmlen, hdlen]
  have hval : strtol (formatInt 4 d.year ++ formatInt 2 d.month ++ formatInt 2 d.day)
      = d.year * 10000 + d.month * 100 + d.day := by
    have hstr : strtol (formatInt 4 d.year ++ formatInt 2 d.month ++ formatInt 2 d.day)
        = digitsValue 0 (formatInt 4 d.year ++ formatInt 2 d.month ++ formatInt 2 d.day) := by
      cases hf : formatInt 4 d.year with
      | nil => rw [hf] at hyhead; cases hyhead
      | cons c cs =>
        rw [hf] at hyhead
        have hc : c = '2' := Option.some.inj hyhead
        rw [hc]
        exact strtol_digit_two _
    have h3 := hdval ((0 * 10 ^ 4 + d.year) * 10 ^ 2 + d.month) []
    rw [List.append_nil] at h3
    rw [hstr, List.append_assoc, hyval, hmval, h3]
    simp only [digitsValue]
    ring
  unfold dateKey
  simp only [hlen, if_true, hval]

theorem dateKey_lt_iff (a b : Date) (ha : a.InRange) (hb : b.InRange) (ka kb : Int)
    (hka : dateKey a = some ka) (hkb : dateKey b = some kb) : ka < kb ↔ a.before b := by
  rw [dateKey_inRange a ha] at hka
  rw [dateKey_inRange b hb] at hkb
  have e1 := Option.some.inj hka
  have e2 := Option.some.inj hkb
  obtain ⟨_, _, _, _, _, _⟩ := ha
  obtain ⟨_, _, _, _, _, _⟩ := hb
  unfold Date.before
  constructor
  · intro h
    omega
  · intro h
    omega

theorem dateKey_injective (a b : Date) (ha : a.InRange) (hb : b.InRange)
    (h : dateKey a = dateKey b) : a = b := by
  rw [dateKey_inRange a ha, dateKey_inRange b hb] at h
  have e := Option.some.inj h
  obtain ⟨_, _, _, _, _, _⟩ := ha
  obtain ⟨_, _, _, _, _, _⟩ := hb
  cases a; cases b
  simp only [Date.mk.injEq] at *
  omega

/-! ## The buckets of a run -/

theorem touch_key (key : Int) (value : ℚ) (date : Date) (b : Bucket) :
    (touch key value date b).key = b.key := by
  unfold touch
  split <;> rfl

theorem map_touch_key (key : Int) (value : ℚ) (date : Date) (bs : List Bucket) :
    (bs.map (touch key value date)).map Bucket.key = bs.map Bucket.key := by
  rw [List.map_map]
  exact List.map_congr_left (fun b _ => touch_key key value date b)

theorem map_touch_of_ne (key : Int) (value : ℚ) (date : Date) (bs : List Bucket)
    (h : ∀ b ∈ bs, key ≠ b.key) : bs.map (touch key value date) = bs := by
  conv_rhs => rw [← List.map_id bs]
  apply List.map_congr_left
  intro b hb
  simp [touch, h b hb]

/-- On a chain with ascending keys the scan updates the bucket of the key, if there is
one, and leaves every other bucket as it is. -/
theorem bucketScan_sorted (key : Int) (value : ℚ) (date : Date) :
    ∀ bs : List Bucket, (bs.map Bucket.key).Pairwise (· < ·) →
      bucketScan key value date bs = bs.map (touch key value date) := by
  intro bs
  induction bs with
  | nil => intro _; rfl
  | cons b rest ih =>
    intro hs
    rw [List.map_cons, List.pairwise_cons] at hs
    obtain ⟨hb, hrest⟩ := hs
    have hb1 : ∀ c ∈ rest, b.key < c.key := fun c hc => hb c.key (List.mem_map_of_mem _ hc)
    by_cases hk : key = b.key
    · have hne : ∀ c ∈ rest, key ≠ c.key := fun c hc => by
        have := hb1 c hc
        omega
      simp only [bucketScan, if_pos hk, List.map_cons, map_touch_of_ne _ _ _ _ hne]
      simp [touch, hk]
    · by_cases hlt : key < b.key
      · have hne : ∀ c ∈ rest, key ≠ c.key := fun c hc => by
          have := hb1 c hc
          omega
        simp only [bucketScan, if_neg hk, if_pos hlt, List.map_cons,
          map_touch_of_ne _ _ _ _ hne]
        simp [touch, hk]
      · simp only [bucketScan, if_neg hk, if_neg hlt, List.map_cons, ih hrest]
        simp [touch, hk]

theorem le_last_of_sorted :
    ∀ (l : List Int) (t : Int), l.Pairwise (· < ·) → l.getLast? = some t →
      ∀ x ∈ l, x ≤ t := by
  intro l t hs hl x hx
  obtain ⟨init, rfl⟩ := List.getLast?_eq_some_iff.1 hl
  rw [List.pairwise_append] at hs
  rcases List.mem_append.1 hx with h | h
  · exact le_of_lt (hs.2.2 x h t (List.mem_singleton_self t))
  · rw [List.mem_singleton] at h
    exact le_of_eq h

theorem head_le_of_sorted (b : Bucket) (rest : List Bucket)
    (hs : ((b :: rest).map Bucket.key).Pairwise (· < ·)) :
    ∀ c ∈ b :: rest, b.key ≤ c.key := by
  intro c hc
  rw [List.map_cons, List.pairwise_cons] at hs
  rcases List.mem_cons.1 hc with rfl | h
  · exact le_refl _
  · exact le_of_lt (hs.1 c.key (List.mem_map_of_mem _ h))

theorem bucket_le_last (bs : List Bucket) (t : Bucket)
    (hs : (bs.map Bucket.key).Pairwise (· < ·)) (hl : bs.getLast? = some t) :
    ∀ c ∈ bs, c.key ≤ t.key := by
  intro c hc
  apply le_last_of_sorted _ _ hs _ c.key (List.mem_map_of_mem _ hc)
  rw [List.getLast?_map, hl]
  rfl

/-- The shape of `bucketInsert` on a chain with ascending keys. -/
theorem bucketInsert_sorted_keys (bs : List Bucket) (key : Int) (value : ℚ) (date : Date)
    (hs : (bs.map Bucket.key).Pairwise (· < ·)) :
    ((bucketInsert bs key value date).map Bucket.key).Pairwise (· < ·) := by
  cases bs with
  | nil => simp [bucketInsert]
  | cons b rest =>
    cases hl : (b :: rest).getLast? with
    | none => simp at hl
    | some t =>
      by_cases hk : key < b.key
      · rw [bucketInsert_head b rest key value date hk, List.map_cons, List.pairwise_cons]
        refine ⟨?_, hs⟩
        intro k hk1
        obtain ⟨c, hc, rfl⟩ := List.mem_map.1 hk1
        exact lt_of_lt_of_le hk (head_le_of_sorted b rest hs c hc)
      · by_cases hkt : key > t.key
        · rw [bucketInsert_tail b t rest key value date hk hl hkt, List.map_append,
            List.pairwise_append]
          refine ⟨hs, by simp, ?_⟩
          intro k hk1 k2 hk2
          obtain ⟨c, hc, rfl⟩ := List.mem_map.1 hk1
          simp only [List.map_cons, List.map_nil, List.mem_singleton] at hk2
          rw [hk2]
          exact lt_of_le_of_lt (bucket_le_last _ t hs hl c hc) hkt
        · rw [bucketInsert_scan b t rest key value date hk hl hkt,
            bucketScan_sorted key value date _ hs, map_touch_key]
          exact hs

theorem keyTemps_snoc_eq (k : Int) (done : List Observation) (o : Observation)
    (h : keyOf o = k) : keyTemps k (done ++ [o]) = keyTemps k done ++ [o.temperature] := by
  simp [keyTemps, List.filter_append, h]

theorem keyTemps_snoc_ne (k : Int) (done : List Observation) (o : Observation)
    (h : keyOf o ≠ k) : keyTemps k (done ++ [o]) = keyTemps k done := by
  simp [keyTemps, List.filter_append, h]

theorem keyTemps_eq_nil (k : Int) (done : List Observation)
    (h : ∀ o ∈ done, keyOf o ≠ k) : keyTemps k done = [] := by
  simp only [keyTemps, List.map_eq_nil_iff, List.filter_eq_nil_iff]
  intro o ho
  simpa using h o ho

theorem runInv_nil : RunInv [] [] :=
  ⟨List.Pairwise.nil, fun _ hb => absurd hb (List.not_mem_nil _),
    fun _ ho => absurd ho (List.not_mem_nil _)⟩

theorem runInv_done_nil (done : List Observation) (h : RunInv [] done) : done = [] := by
  cases done with
  | nil => rfl
  | cons o rest =>
    obtain ⟨_, _, hh, _⟩ := h.2.2 o (List.mem_cons_self _ _)
    cases hh

/-- One round of the insertion loop keeps the invariant of the run. -/
theorem runInv_step (bs : List Bucket) (done : List Observation) (o : Observation)
    (h : RunInv bs done) (hkey : dateKey o.obs_date = some (keyOf o)) :
    RunInv (bucketInsert bs (keyOf o) o.temperature o.obs_date) (done ++ [o]) := by
  obtain ⟨hs, hb, hd⟩ := h
  refine ⟨bucketInsert_sorted_keys bs _ _ _ hs, ?_, ?_⟩
  · -- the buckets
    cases bs with
    | nil =>
      have hdone : done = [] := runInv_done_nil done ⟨hs, hb, hd⟩
      subst hdone
      intro b hmem
      rw [bucketInsert_nil, List.mem_singleton] at hmem
      subst hmem
      exact ⟨hkey, ⟨o, by simp, rfl⟩, by simp [keyTemps], by simp [keyTemps]⟩
    | cons b0 rest =>
      cases hl : (b0 :: rest).getLast? with
      | none => simp at hl
      | some t =>
        have hold : ∀ b ∈ b0 :: rest, keyOf o ≠ b.key →
            dateKey b.date = some b.key
            ∧ (∃ o1 ∈ done ++ [o], o1.obs_date = b.date)
            ∧ b.value = (keyTemps b.key (done ++ [o])).sum
            ∧ b.count = ((keyTemps b.key (done ++ [o])).length : Int) := by
          intro b hmem hne
          obtain ⟨h1, ⟨o1, ho1, ho1d⟩, h3, h4⟩ := hb b hmem
          rw [keyTemps_snoc_ne _ _ _ hne]
          exact ⟨h1, ⟨o1, List.mem_append_left _ ho1, ho1d⟩, h3, h4⟩
        have hnew : (∀ o1 ∈ done, keyOf o1 ≠ keyOf o) →
            dateKey o.obs_date = some (keyOf o)
            ∧ (∃ o1 ∈ done ++ [o], o1.obs_date = o.obs_date)
            ∧ o.temperature = (keyTemps (keyOf o) (done ++ [o])).sum
            ∧ (1 : Int) = ((keyTemps (keyOf o) (done ++ [o])).length : Int) := by
          intro hfresh
          rw [keyTemps_snoc_eq _ _ _ rfl, keyTemps_eq_nil _ _ hfresh]
          exact ⟨hkey, ⟨o, by simp, rfl⟩, by simp, by simp⟩
        by_cases hk : keyOf o < b0.key
        · rw [bucketInsert_head b0 rest _ _ _ hk]
          intro b hmem
          rcases List.mem_cons.1 hmem with rfl | hmem
          · apply hnew
            intro o1 ho1
            obtain ⟨h0, _, hh, _, hle, _⟩ := hd o1 ho1
            rw [List.head?_cons] at hh
            have := Option.some.inj hh
            subst this
            omega
          · apply hold b hmem
            have := head_le_of_sorted b0 rest hs b hmem
            omega
        · by_cases hkt : keyOf o > t.key
          · rw [bucketInsert_tail b0 t rest _ _ _ hk hl hkt]
            intro b hmem
            rcases List.mem_append.1 hmem with hmem | hmem
            · apply hold b hmem
              have := bucket_le_last _ t hs hl b hmem
              omega
            · rw [List.mem_singleton] at hmem
              subst hmem
              apply hnew
              intro o1 ho1
              obtain ⟨_, t0, _, ht, _, hle⟩ := hd o1 ho1
              rw [hl] at ht
              have := Option.some.inj ht
              subst this
              omega
          · rw [bucketInsert_scan b0 t rest _ _ _ hk hl hkt,
              bucketScan_sorted _ _ _ _ hs]
            intro b hmem
            obtain ⟨c, hc, rfl⟩ := List.mem_map.1 hmem
            by_cases hkc : keyOf o = c.key
            · obtain ⟨_, _, h3, h4⟩ := hb c hc
              have e : touch (keyOf o) o.temperature o.obs_date c
                  = { c with count := c.count + 1, value := c.value + o.temperature,
                             date := o.obs_date } := by
                simp [touch, hkc]
              rw [e]
              refine ⟨by rw [hkey, hkc], ⟨o, by simp, rfl⟩, ?_, ?_⟩
              · show c.value + o.temperature = _
                rw [keyTemps_snoc_eq _ _ _ hkc, List.sum_append, h3]
                simp
              · show c.count + 1 = _
                rw [keyTemps_snoc_eq _ _ _ hkc, h4]
                simp
            · have e : touch (keyOf o) o.temperature o.obs_date c = c := by
                simp [touch, hkc]
              rw [e]
              exact hold c hc hkc
  · -- the range of keys seen so far
    cases bs with
    | nil =>
      have hdone : done = [] := runInv_done_nil done ⟨hs, hb, hd⟩
      subst hdone
      intro o1 ho1
      simp only [List.nil_append, List.mem_singleton] at ho1
      subst ho1
      exact ⟨_, _, rfl, rfl, le_refl _, le_refl _⟩
    | cons b0 rest =>
      cases hl : (b0 :: rest).getLast? with
      | none => simp at hl
      | some t =>
        have hb0t : b0.key ≤ t.key := bucket_le_last _ t hs hl b0 (List.mem_cons_self _ _)
        have hold : ∀ o1 ∈ done, b0.key ≤ keyOf o1 ∧ keyOf o1 ≤ t.key := by
          intro o1 ho1
          obtain ⟨h0, t0, hh, ht, h1, h2⟩ := hd o1 ho1
          rw [List.head?_cons] at hh
          rw [hl] at ht
          have e1 := Option.some.inj hh
          have e2 := Option.some.inj ht
          subst e1
          subst e2
          exact ⟨h1, h2⟩
        by_cases hk : keyOf o < b0.key
        · rw [bucketInsert_head b0 rest _ _ _ hk]
          intro o1 ho1
          refine ⟨_, t, rfl, by rw [List.getLast?_cons_cons]; exact hl, ?_, ?_⟩
          · show keyOf o ≤ keyOf o1
            rcases List.mem_append.1 ho1 with h | h
            · have := (hold o1 h).1
              omega
            · rw [List.mem_singleton] at h
              rw [h]
          · rcases List.mem_append.1 ho1 with h | h
            · exact (hold o1 h).2
            · rw [List.mem_singleton] at h
              rw [h]
              omega
        · by_cases hkt : keyOf o > t.key
          · rw [bucketInsert_tail b0 t rest _ _ _ hk hl hkt]
            intro o1 ho1
            refine ⟨b0, _, rfl, List.getLast?_concat _, ?_, ?_⟩
            · rcases List.mem_append.1 ho1 with h | h
              · exact (hold o1 h).1
              · rw [List.mem_singleton] at h
                rw [h]
                omega
            · show keyOf o1 ≤ keyOf o
              rcases List.mem_append.1 ho1 with h | h
              · have := (hold o1 h).2
                omega
              · rw [List.mem_singleton] at h
                rw [h]
          · rw [bucketInsert_scan b0 t rest _ _ _ hk hl hkt,
              bucketScan_sorted _ _ _ _ hs]
            intro o1 ho1
            refine ⟨touch (keyOf o) o.temperature o.obs_date b0,
              touch (keyOf o) o.temperature o.obs_date t, rfl,
              by rw [List.getLast?_map, hl]; rfl, ?_, ?_⟩
            · rw [touch_key]
              rcases List.mem_append.1 ho1 with h | h
              · exact (hold o1 h).1
              · rw [List.mem_singleton] at h
                rw [h]
                omega
            · rw [touch_key]
              rcases List.mem_append.1 ho1 with h | h
              · exact (hold o1 h).2
              · rw [List.mem_singleton] at h
                rw [h]
                omega

theorem keyOf_eq (o : Observation) (h : (dateKey o.obs_date).isSome) :
    dateKey o.obs_date = some (keyOf o) := by
  unfold keyOf
  cases hk : dateKey o.obs_date with
  | none => rw [hk] at h; cases h
  | some k => rfl

/-- The invariant holds along the whole run. -/
theorem runInv_run :
    ∀ (obs : List Observation) (bs : List Bucket) (done : List Observation),
      RunInv bs done → (∀ o ∈ obs, (dateKey o.obs_date).isSome) →
      RunInv (bucketRun bs obs) (done ++ obs) := by
  intro obs
  induction obs with
  | nil =>
    intro bs done h _
    rw [List.append_nil]
    exact h
  | cons o rest ih =>
    intro bs done h hkeys
    have hstep := runInv_step bs done o h (keyOf_eq o (hkeys o (List.mem_cons_self _ _)))
    have := ih _ _ hstep (fun o1 ho1 => hkeys o1 (List.mem_cons_of_mem _ ho1))
    rw [List.append_assoc] at this
    exact this

/-! ## The insertion loop and the printed buckets -/

theorem insertLoop_simulates :
    ∀ (obs : List Observation) (heap : List Node) (l : HashList) (ns : List (Nat × Node)),
      Represents heap l ns → (∀ o ∈ obs, (dateKey o.obs_date).isSome) →
      ∃ heap1 l1 ns1, insertLoop heap (some l) obs = some (heap1, some l1)
        ∧ Represents heap1 l1 ns1
        ∧ ns1.map (fun x => x.2.bucket) = bucketRun (ns.map (fun x => x.2.bucket)) obs := by
  intro obs
  induction obs with
  | nil =>
    intro heap l ns h _
    exact ⟨heap, l, ns, rfl, h, rfl⟩
  | cons o rest ih =>
    intro heap l ns h hkeys
    have hkey := keyOf_eq o (hkeys o (List.mem_cons_self _ _))
    obtain ⟨heap1, l1, r, heap2, ns2, hins, hup, hrep, hbs⟩ :=
      insert_simulates heap l ns (keyOf o) o.temperature o.obs_date h
    obtain ⟨heap3, l3, ns3, hloop, hrep3, hbs3⟩ :=
      ih heap2 l1 ns2 hrep (fun o1 ho1 => hkeys o1 (List.mem_cons_of_mem _ ho1))
    refine ⟨heap3, l3, ns3, ?_, hrep3, ?_⟩
    · simp only [insertLoop, hkey, hins, hup]
      exact hloop
    · rw [hbs3, hbs]
      rfl

theorem insertLoop_defined :
    ∀ (obs : List Observation) (heap : List Node) (l : Option HashList)
      (res : List Node × Option HashList),
      insertLoop heap l obs = some res → ∀ o ∈ obs, (dateKey o.obs_date).isSome := by
  intro obs
  induction obs with
  | nil => intro _ _ _ _ o ho; cases ho
  | cons o rest ih =>
    intro heap l res h o1 ho1
    cases hk : dateKey o.obs_date with
    | none => simp [insertLoop, hk] at h
    | some k =>
      rcases List.mem_cons.1 ho1 with rfl | hmem
      · rw [hk]; rfl
      · simp only [insertLoop, hk] at h
        split at h
        · split at h
          · cases h
          · exact ih _ _ _ h o1 hmem
        · cases h

theorem represents_init : Represents [] { head := none, tail := none } [] :=
  ⟨rfl, rfl, List.nodup_nil⟩

/-- The nodes visited by the printing loop carry the buckets of the run. -/
theorem dailyBuckets_eq (obs : List Observation)
    (hkeys : ∀ o ∈ obs, (dateKey o.obs_date).isSome) :
    ∃ ns, dailyBuckets obs = some ns ∧ ns.map Node.bucket = bucketRun [] obs := by
  obtain ⟨heap1, l1, ns1, hloop, hrep, hbs⟩ :=
    insertLoop_simulates obs [] _ [] represents_init hkeys
  have hlen : ns1.length ≤ heap1.length := by
    have := nodup_length_le heap1.length _ hrep.2.2 (represents_addr_lt hrep)
    simpa using this
  refine ⟨ns1.map Prod.snd, ?_, ?_⟩
  · unfold dailyBuckets listCreate
    rw [hloop]
    exact walk_of_isChain ns1 _ _ hrep.1 hlen
  · rw [List.map_map]
    exact hbs

theorem dailyBuckets_defined (obs : List Observation) (ns : List Node)
    (h : dailyBuckets obs = some ns) : ∀ o ∈ obs, (dateKey o.obs_date).isSome := by
  unfold dailyBuckets at h
  cases hl : insertLoop [] listCreate obs with
  | none => rw [hl] at h; cases h
  | some res => exact insertLoop_defined obs _ _ res hl

theorem print_daily_averages_eq (obs : List Observation) (ns : List Node)
    (h : dailyBuckets obs = some ns) :
    print_daily_averages obs = some (ns.map averageLine) := by
  unfold print_daily_averages
  rw [h]

theorem inRange_defined (obs : List Observation) (h : ∀ o ∈ obs, o.obs_date.InRange) :
    ∀ o ∈ obs, (dateKey o.obs_date).isSome := by
  intro o ho
  rw [dateKey_inRange _ (h o ho)]
  rfl


/-! ## The station report -/

theorem entryStep_entryOf (s : Nat) (e : ObservationExtreme) (o : Observation)
    (he : EntryOf s e) (ho : o.station_id = (s : Int)) : EntryOf s (entryStep e o) := by
  rcases he with ⟨h1, h2⟩ | ⟨mn, mx, h1, h2, h3, h4⟩
  · right
    exact ⟨o, o, by simp [entryStep, h1], by simp [entryStep, h1], ho, ho⟩
  · right
    unfold entryStep
    simp only [h1, Option.isSome_some, if_true]
    by_cases c1 : compareObservations (some o) (some mn) > 0
    · by_cases c2 : compareObservations (some o) e.max = 0
      · simp only [c1, if_true, c2]
        exact ⟨o, o, rfl, rfl, ho, ho⟩
      · simp only [c1, if_true, c2, if_false]
        exact ⟨o, mx, rfl, h2, ho, h4⟩
    · by_cases c2 : compareObservations (some o) e.max = 0
      · simp only [c1, if_false, c2, if_true]
        exact ⟨mn, o, h1, rfl, h3, ho⟩
      · simp only [c1, if_false, c2]
        exact ⟨mn, mx, h1, h2, h3, h4⟩

theorem foldl_entryOf (s : Nat) :
    ∀ (l : List Observation) (e : ObservationExtreme), EntryOf s e →
      (∀ o ∈ l, o.station_id = (s : Int)) → EntryOf s (l.foldl entryStep e) := by
  intro l
  induction l with
  | nil => intro e he _; exact he
  | cons o rest ih =>
    intro e he hl
    exact ih _ (entryStep_entryOf s e o he (hl o (List.mem_cons_self _ _)))
      (fun o1 ho1 => hl o1 (List.mem_cons_of_mem _ ho1))

theorem stationEntry_entryOf (s : Nat) (obs : List Observation) :
    EntryOf s (stationEntry s obs) := by
  apply foldl_entryOf s _ _ (Or.inl ⟨rfl, rfl⟩)
  intro o ho
  simpa using (List.mem_filter.1 ho).2

theorem extremesStep_eq (extremes : List ObservationExtreme) (o : Observation)
    (e : ObservationExtreme) (h0 : 0 ≤ o.station_id)
    (he : extremes[o.station_id.toNat]? = some e) :
    extremesStep extremes o = some (extremes.set o.station_id.toNat (entryStep e o)) := by
  simp only [extremesStep, h0, if_true, he]

/-- The first loop of `print_station_extremes` applies to every entry the observations of
its own station, in input order. -/
theorem extremesLoop_eq :
    ∀ (obs : List Observation) (extremes : List ObservationExtreme),
      (∀ o ∈ obs, 0 ≤ o.station_id ∧ o.station_id.toNat < extremes.length) →
      ∃ extremes1, extremesLoop extremes obs = some extremes1
        ∧ extremes1.length = extremes.length
        ∧ ∀ (i : Nat) (e : ObservationExtreme), extremes[i]? = some e →
            extremes1[i]? = some
              ((obs.filter (fun o => o.station_id = (i : Int))).foldl entryStep e) := by
  intro obs
  induction obs with
  | nil =>
    intro extremes _
    exact ⟨extremes, rfl, rfl, fun i e he => he⟩
  | cons o rest ih =>
    intro extremes hr
    obtain ⟨h0, hlt⟩ := hr o (List.mem_cons_self _ _)
    obtain ⟨e0, he⟩ : ∃ e0, extremes[o.station_id.toNat]? = some e0 :=
      ⟨_, List.getElem?_eq_getElem hlt⟩
    have hstep := extremesStep_eq extremes o e0 h0 he
    have hlen : (extremes.set o.station_id.toNat (entryStep e0 o)).length
        = extremes.length := List.length_set _ _ _
    obtain ⟨extremes1, hloop, hlen1, hget⟩ := ih
      (extremes.set o.station_id.toNat (entryStep e0 o))
      (fun o1 ho1 => by
        rw [hlen]
        exact hr o1 (List.mem_cons_of_mem _ ho1))
    refine ⟨extremes1, ?_, by rw [hlen1, hlen], ?_⟩
    · simp only [extremesLoop, hstep]
      exact hloop
    · intro i e hie
      by_cases hi : o.station_id = (i : Int)
      · have hi1 : o.station_id.toNat = i := by omega
        rw [hi1] at he hlt hget
        have hee : e0 = e := by
          rw [he] at hie
          exact Option.some.inj hie
        rw [List.filter_cons_of_pos (by simpa using hi), List.foldl_cons]
        apply hget
        rw [List.getElem?_set_self hlt, hee]
      · have hi1 : o.station_id.toNat ≠ i := by omega
        rw [List.filter_cons_of_neg (by simpa using hi)]
        apply hget
        rw [List.getElem?_set_ne hi1]
        exact hie

theorem printLoop_eq (extremes : List ObservationExtreme) :
    ∀ (is : List Nat),
      (∀ i ∈ is, ∃ e, extremes[i]? = some e ∧ EntryOf i e) →
      printLoop extremes is
        = some (is.filterMap (fun i => (extremes[i]?).bind print_station_extreme_info)) := by
  intro is
  induction is with
  | nil => intro _; rfl
  | cons i rest ih =>
    intro h
    obtain ⟨e, he, hok⟩ := h i (List.mem_cons_self _ _)
    have ih1 := ih (fun j hj => h j (List.mem_cons_of_mem _ hj))
    rcases hok with ⟨h1, h2⟩ | ⟨mn, mx, h1, h2, _, _⟩
    · have hp : print_station_extreme_info e = none := by
        simp [print_station_extreme_info, h1]
      simp only [printLoop, he, h1, Option.isSome_none, ih1]
      rw [List.filterMap_cons_none (by rw [he]; exact hp)]
      rfl
    · have hp : print_station_extreme_info e
          = some { station_id := mn.station_id, min := mn, max := mx } := by
        simp [print_station_extreme_info, h1, h2]
      simp only [printLoop, he, h1, Option.isSome_some, if_true, hp, ih1]
      rw [List.filterMap_cons_some (by rw [he]; exact hp)]

/-- For observations whose station numbers index the array, `print_station_extremes`
prints, for `i = 1, ..., 248, 249` in this order, the line of the entry of station `i`
when that entry is set. -/
theorem print_station_extremes_eq (obs : List Observation) (hne : obs ≠ [])
    (hr : ∀ o ∈ obs, 0 ≤ o.station_id ∧ o.station_id ≤ 250) :
    print_station_extremes obs
      = some ((List.range' 1 249).filterMap
          (fun i => print_station_extreme_info (stationEntry i obs))) := by
  have hpos : obs.length > 0 := List.length_pos.2 hne
  obtain ⟨extremes1, hloop, _, hget⟩ := extremesLoop_eq obs
    (List.replicate (MAX_STATION_NUMBER + 1) { min := none, max := none })
    (fun o ho => by
      obtain ⟨h0, h1⟩ := hr o ho
      refine ⟨h0, ?_⟩
      rw [List.length_replicate]
      unfold MAX_STATION_NUMBER
      omega)
  have hentry : ∀ i ∈ List.range' 1 249, extremes1[i]? = some (stationEntry i obs) := by
    intro i hi
    rw [List.mem_range'_1] at hi
    apply hget
    apply List.getElem?_replicate_of_lt
    unfold MAX_STATION_NUMBER
    omega
  simp only [print_station_extremes, hpos, if_true, hloop]
  rw [show MAX_STATION_NUMBER - 1 = 249 from rfl,
    printLoop_eq extremes1 _ (fun i hi => ⟨_, hentry i hi, stationEntry_entryOf i obs⟩)]
  congr 1
  apply List.filterMap_congr
  intro i hi
  rw [hentry i hi]
  rfl

theorem print_info_station (s : Nat) (e : ObservationExtreme) (l : StationLine)
    (he : EntryOf s e) (hl : print_station_extreme_info e = some l) :
    l.station_id = (s : Int) ∧ e.min = some l.min ∧ e.max = some l.max := by
  rcases he with ⟨h1, h2⟩ | ⟨mn, mx, h1, h2, h3, _⟩
  · simp [print_station_extreme_info, h1] at hl
  · simp only [print_station_extreme_info, h1, h2] at hl
    have := Option.some.inj hl
    subst this
    exact ⟨h3, h1, h2⟩


/-! ## Properties of the two reports -/

set_option maxRecDepth 20000

/-- The buckets of a run over observations with defined keys satisfy the run invariant. -/
theorem runInv_final (obs : List Observation)
    (hkeys : ∀ o ∈ obs, (dateKey o.obs_date).isSome) : RunInv (bucketRun [] obs) obs := by
  have := runInv_run obs [] [] runInv_nil hkeys
  simpa using this

/-- Inside the documented range the observations of a key are those of its date. -/
theorem keyTemps_eq_temperaturesOn (obs : List Observation) (d : Date) (k : Int)
    (hr : ∀ o ∈ obs, o.obs_date.InRange) (hd : d.InRange) (hk : dateKey d = some k) :
    keyTemps k obs = temperaturesOn d obs := by
  unfold keyTemps temperaturesOn
  congr 1
  apply List.filter_congr
  intro o ho
  have hko := keyOf_eq o (inRange_defined obs hr o ho)
  by_cases h : o.obs_date = d
  · have : keyOf o = k := by
      rw [h, hk] at hko
      exact (Option.some.inj hko).symm
    simp [h, this]
  · have : keyOf o ≠ k := by
      intro e
      apply h
      apply dateKey_injective _ _ (hr o ho) hd
      rw [hko, hk, e]
    simp [h, this]

/-- C1 (failing input): three observations dated 2020-01-01, 2020-01-03 and 2020-01-02, in
this order. The date 2020-01-02 occurs in the input, and the report has lines for
2020-01-01 and 2020-01-03 only: the node created between two nodes of the chain is
not reached by the `next` links. -/
theorem print_daily_averages_misses_date :
    print_daily_averages
        [⟨⟨2020, 1, 1⟩, 0, 0, 1, 5⟩, ⟨⟨2020, 1, 3⟩, 0, 0, 1, 7⟩, ⟨⟨2020, 1, 2⟩, 0, 0, 1, 9⟩]
      = some [⟨2020, 1, 1, 5⟩, ⟨2020, 1, 3, 7⟩] := by
  have h : dailyBuckets
      [⟨⟨2020, 1, 1⟩, 0, 0, 1, 5⟩, ⟨⟨2020, 1, 3⟩, 0, 0, 1, 7⟩, ⟨⟨2020, 1, 2⟩, 0, 0, 1, 9⟩]
      = some [⟨20200101, 5, ⟨2020, 1, 1⟩, 1, none, some 1⟩,
              ⟨20200103, 7, ⟨2020, 1, 3⟩, 1, some 2, none⟩] := by decide
  rw [print_daily_averages_eq _ _ h]
  simp [averageLine]

/-- C2: for observations with dates in the documented range, `print_daily_averages`
prints a report, and its lines are strictly ascending by date (year, then month, then
day): every line is chronologically before every later line, so no date is printed
twice. -/
theorem print_daily_averages_ascending (obs : List Observation)
    (hr : ∀ o ∈ obs, o.obs_date.InRange) :
    ∃ lines, print_daily_averages obs = some lines
      ∧ lines.Pairwise (fun a b => a.date.before b.date) := by
  have hkeys := inRange_defined obs hr
  obtain ⟨ns, hns, hbs⟩ := dailyBuckets_eq obs hkeys
  obtain ⟨hsorted, hb, _⟩ := runInv_final obs hkeys
  refine ⟨_, print_daily_averages_eq obs ns hns, ?_⟩
  rw [← hbs, List.map_map, List.pairwise_map] at hsorted
  rw [List.pairwise_map]
  refine hsorted.imp_of_mem ?_
  intro a b ha hb1 hlt
  have hain : a.bucket ∈ bucketRun [] obs := hbs ▸ List.mem_map_of_mem _ ha
  have hbin : b.bucket ∈ bucketRun [] obs := hbs ▸ List.mem_map_of_mem _ hb1
  obtain ⟨hka, ⟨oa, hoa, hda⟩, _, _⟩ := hb _ hain
  obtain ⟨hkb, ⟨ob, hob, hdb⟩, _, _⟩ := hb _ hbin
  have hra : a.bucket.date.InRange := hda ▸ hr oa hoa
  have hrb : b.bucket.date.InRange := hdb ▸ hr ob hob
  exact (dateKey_lt_iff _ _ hra hrb _ _ hka hkb).1 hlt

/-- C2 (witness): Scenario C, three dates supplied out of chronological order. -/
theorem print_daily_averages_ascending_witness :
    (∀ o ∈ ([⟨⟨2020, 1, 3⟩, 0, 0, 1, 7⟩, ⟨⟨2020, 1, 2⟩, 0, 0, 1, 9⟩,
              ⟨⟨2020, 1, 1⟩, 0, 0, 1, 5⟩] : List Observation), o.obs_date.InRange)
    ∧ ∃ lines, print_daily_averages
          [⟨⟨2020, 1, 3⟩, 0, 0, 1, 7⟩, ⟨⟨2020, 1, 2⟩, 0, 0, 1, 9⟩, ⟨⟨2020, 1, 1⟩, 0, 0, 1, 5⟩]
          = some lines
        ∧ lines.Pairwise (fun a b => a.date.before b.date) :=
  ⟨by decide, print_daily_averages_ascending _ (by decide)⟩

/-- C3 (counterexample): two observations dated 2020-(-1)-01 and 2020-(-2)-01, outside the
documented range of months. Both dates are printed as eight characters, `2020-101` and
`2020-201`, and `strtol` reads the key 2020 from either, so the two observations share
one bucket. The bucket carries the date 2020-(-2)-01, the sum 5 + 7 and the count 2,
while the only observation of that date has temperature 7: mean correctness fails. -/
theorem shared_key_merges_dates :
    ¬ MeanCorrect [⟨⟨2020, -1, 1⟩, 0, 0, 1, 5⟩, ⟨⟨2020, -2, 1⟩, 0, 0, 1, 7⟩] := by
  rintro ⟨ns, hns, _, h⟩
  have hb : dailyBuckets [⟨⟨2020, -1, 1⟩, 0, 0, 1, 5⟩, ⟨⟨2020, -2, 1⟩, 0, 0, 1, 7⟩]
      = some [⟨2020, 5 + 7, ⟨2020, -2, 1⟩, 2, none, none⟩] := by rfl
  rw [hb] at hns
  have e := Option.some.inj hns
  subst e
  have hcount := (h _ (List.mem_singleton_self _)).2.1
  have hlen : temperaturesOn ⟨2020, -2, 1⟩
      [⟨⟨2020, -1, 1⟩, 0, 0, 1, 5⟩, ⟨⟨2020, -2, 1⟩, 0, 0, 1, 7⟩] = [7] := by decide
  rw [hlen] at hcount
  exact absurd hcount (by decide)

/-- C3 (amended): for observations with dates in the documented range (years 2015..2020,
months 1..12, days 1..31) the daily report is mean correct: for every bucket reached from
the list head, with date `d`, the accumulated sum is the sum of the temperatures of the
observations dated `d`, the count is the number `k` of these observations, and the
printed mean is that sum divided by `k`. -/
theorem daily_buckets_mean (obs : List Observation)
    (hr : ∀ o ∈ obs, o.obs_date.InRange) : MeanCorrect obs := by
  have hkeys := inRange_defined obs hr
  obtain ⟨ns, hns, hbs⟩ := dailyBuckets_eq obs hkeys
  obtain ⟨_, hb, _⟩ := runInv_final obs hkeys
  refine ⟨ns, hns, print_daily_averages_eq obs ns hns, ?_⟩
  intro n hn
  have hin : n.bucket ∈ bucketRun [] obs := hbs ▸ List.mem_map_of_mem _ hn
  obtain ⟨hk, ⟨o, ho, hd⟩, hsum, hcount⟩ := hb _ hin
  have hrd : n.date.InRange := by
    have := hr o ho
    rw [hd] at this
    exact this
  have hk1 : dateKey n.date = some n.key := hk
  have hsum1 : n.value = (keyTemps n.key obs).sum := hsum
  have hcount1 : n.no_of_observations = ((keyTemps n.key obs).length : Int) := hcount
  rw [keyTemps_eq_temperaturesOn obs n.date n.key hr hrd hk1] at hsum1 hcount1
  refine ⟨hsum1, hcount1, ?_⟩
  show n.value / (n.no_of_observations : ℚ) = _
  rw [hsum1, hcount1]
  simp

/-- C3 (witness): Scenario B, two observations on one date with temperatures 3 and 7. -/
theorem daily_buckets_mean_witness :
    (∀ o ∈ ([⟨⟨2020, 1, 1⟩, 8, 0, 2, 3⟩, ⟨⟨2020, 1, 1⟩, 9, 0, 2, 7⟩] : List Observation),
        o.obs_date.InRange)
    ∧ MeanCorrect [⟨⟨2020, 1, 1⟩, 8, 0, 2, 3⟩, ⟨⟨2020, 1, 1⟩, 9, 0, 2, 7⟩] :=
  ⟨by decide, daily_buckets_mean _ (by decide)⟩

/-- C8: whenever `print_daily_averages` prints a report, every date (year, month, day) on
one of its lines is the date of an observation of the input. -/
theorem print_daily_averages_sound (obs : List Observation) (lines : List AverageLine)
    (h : print_daily_averages obs = some lines) :
    ∀ l ∈ lines, ∃ o ∈ obs, o.obs_date = l.date := by
  unfold print_daily_averages at h
  cases hns : dailyBuckets obs with
  | none => rw [hns] at h; cases h
  | some ns =>
    rw [hns] at h
    have hlines := Option.some.inj h
    have hkeys := dailyBuckets_defined obs ns hns
    obtain ⟨ns1, hns1, hbs⟩ := dailyBuckets_eq obs hkeys
    rw [hns] at hns1
    have e := Option.some.inj hns1
    subst e
    obtain ⟨_, hb, _⟩ := runInv_final obs hkeys
    intro l hl
    rw [← hlines] at hl
    obtain ⟨n, hn, rfl⟩ := List.mem_map.1 hl
    have hin : n.bucket ∈ bucketRun [] obs := hbs ▸ List.mem_map_of_mem _ hn
    obtain ⟨_, ⟨o, ho, hd⟩, _, _⟩ := hb _ hin
    exact ⟨o, ho, hd⟩

/-- C8 (witness): Scenario A, a single observation. -/
theorem print_daily_averages_sound_witness :
    print_daily_averages [⟨⟨2020, 1, 1⟩, 0, 0, 1, 5⟩] = some [⟨2020, 1, 1, 5⟩]
    ∧ ∀ l ∈ ([⟨2020, 1, 1, 5⟩] : List AverageLine),
        ∃ o ∈ ([⟨⟨2020, 1, 1⟩, 0, 0, 1, 5⟩] : List Observation), o.obs_date = l.date := by
  have h : print_daily_averages [⟨⟨2020, 1, 1⟩, 0, 0, 1, 5⟩] = some [⟨2020, 1, 1, 5⟩] := by
    have hb : dailyBuckets [⟨⟨2020, 1, 1⟩, 0, 0, 1, 5⟩]
        = some [⟨20200101, 5, ⟨2020, 1, 1⟩, 1, none, none⟩] := by decide
    rw [print_daily_averages_eq _ _ hb]
    simp [averageLine]
  exact ⟨h, print_daily_averages_sound _ _ h⟩

/-- C9: on the empty observation sequence `print_station_extremes` prints no station and
`print_daily_averages` prints no date. -/
theorem empty_input_empty_reports :
    print_station_extremes [] = some [] ∧ print_daily_averages [] = some [] :=
  ⟨rfl, rfl⟩

/-- C4 (failing input): station 1 with 5.0 degrees on 2020-01-01 followed by 9.0 degrees
on 2019-01-01. The second observation has the smaller year, so `compareObservations`
is positive against the first: it becomes the minimum, and it does not become the
maximum. The line reports the minimum 9.0 and the maximum 5.0. -/
theorem print_station_extremes_not_extreme :
    print_station_extremes [⟨⟨2020, 1, 1⟩, 0, 0, 1, 5⟩, ⟨⟨2019, 1, 1⟩, 0, 0, 1, 9⟩]
      = some [⟨1, ⟨⟨2019, 1, 1⟩, 0, 0, 1, 9⟩, ⟨⟨2020, 1, 1⟩, 0, 0, 1, 5⟩⟩] := by
  rw [print_station_extremes_eq _ (by decide) (by decide)]
  decide

/-- C5 (failing input): station 1 with 5.0 degrees on 2020-01-01 and again 5.0 degrees on
2020-01-02. No component of the second observation is smaller, so `compareObservations`
is zero against the maximum and the second observation replaces it: the reported
maximum is the later of the two observations. -/
theorem print_station_extremes_tie_later :
    print_station_extremes [⟨⟨2020, 1, 1⟩, 0, 0, 1, 5⟩, ⟨⟨2020, 1, 2⟩, 0, 0, 1, 5⟩]
      = some [⟨1, ⟨⟨2020, 1, 1⟩, 0, 0, 1, 5⟩, ⟨⟨2020, 1, 2⟩, 0, 0, 1, 5⟩⟩] := by
  rw [print_station_extremes_eq _ (by decide) (by decide)]
  decide

/-- C6 (failing input): a single observation at station 250. The printing loop stops
before `i = 250`, so nothing is printed although station 250 has an observation. -/
theorem print_station_extremes_skips_250 :
    print_station_extremes [⟨⟨2020, 1, 1⟩, 0, 0, 250, 5⟩] = some [] := by
  rw [print_station_extremes_eq _ (by decide) (by decide)]
  decide

/-- C7: for observations with station numbers in 1..250, `print_station_extremes` prints a
report whose station numbers are strictly ascending from line to line, so no station
number is printed on more than one line. -/
theorem print_station_extremes_ascending (obs : List Observation)
    (hr : ∀ o ∈ obs, o.StationInRange) :
    ∃ lines, print_station_extremes obs = some lines
      ∧ (lines.map StationLine.station_id).Pairwise (· < ·) := by
  by_cases hne : obs = []
  · subst hne
    exact ⟨[], rfl, List.Pairwise.nil⟩
  · refine ⟨_, print_station_extremes_eq obs hne
      (fun o ho => ⟨by have := (hr o ho).1; omega, (hr o ho).2⟩), ?_⟩
    rw [List.pairwise_map]
    refine List.Pairwise.filterMap _ ?_ (List.pairwise_lt_range' 1 249)
    intro i j hij a ha b hb
    have h1 := (print_info_station i _ a (stationEntry_entryOf i obs) ha).1
    have h2 := (print_info_station j _ b (stationEntry_entryOf j obs) hb).1
    rw [h1, h2]
    exact Int.ofNat_lt.2 hij

/-- C7 (witness): observations at stations 7, 2 and 7. -/
theorem print_station_extremes_ascending_witness :
    (∀ o ∈ ([⟨⟨2020, 1, 1⟩, 0, 0, 7, 5⟩, ⟨⟨2020, 1, 1⟩, 0, 0, 2, 3⟩,
              ⟨⟨2020, 1, 2⟩, 0, 0, 7, 4⟩] : List Observation), o.StationInRange)
    ∧ ∃ lines, print_station_extremes
          [⟨⟨2020, 1, 1⟩, 0, 0, 7, 5⟩, ⟨⟨2020, 1, 1⟩, 0, 0, 2, 3⟩, ⟨⟨2020, 1, 2⟩, 0, 0, 7, 4⟩]
          = some lines
        ∧ (lines.map StationLine.station_id).Pairwise (· < ·) :=
  ⟨by decide, print_station_extremes_ascending _ (by decide)⟩

/-- C10 (failing input): station 2 on 2020-01-01 with 3.0 degrees at 10:00 followed by 7.0
degrees at 09:00. The second observation has the smaller hour, so it becomes the
minimum and does not become the maximum: the line reports the minimum 7.0 and the
maximum 3.0. -/
theorem print_station_extremes_scenario_b :
    print_station_extremes [⟨⟨2020, 1, 1⟩, 10, 0, 2, 3⟩, ⟨⟨2020, 1, 1⟩, 9, 0, 2, 7⟩]
      = some [⟨2, ⟨⟨2020, 1, 1⟩, 9, 0, 2, 7⟩, ⟨⟨2020, 1, 1⟩, 10, 0, 2, 3⟩⟩] := by
  rw [print_station_extremes_eq _ (by decide) (by decide)]
  decide


/-! ## The entries of the station tracker -/

/-- With station numbers inside the array, the first loop of `print_station_extremes` is
defined and leaves at index `s` the entry of station `s`. -/
theorem finalExtremes_eq (obs : List Observation) (hr : ∀ o ∈ obs, o.StationInBounds) :
    ∃ extremes, finalExtremes obs = some extremes
      ∧ extremes.length = MAX_STATION_NUMBER + 1
      ∧ ∀ s : Nat, s ≤ 250 → extremes[s]? = some (stationEntry s obs) := by
  obtain ⟨extremes1, hloop, hlen, hget⟩ := extremesLoop_eq obs
    (List.replicate (MAX_STATION_NUMBER + 1) { min := none, max := none })
    (fun o ho => by
      obtain ⟨h0, h1⟩ := hr o ho
      refine ⟨h0, ?_⟩
      rw [List.length_replicate]
      unfold MAX_STATION_NUMBER
      omega)
  refine ⟨extremes1, hloop, by rw [hlen, List.length_replicate], ?_⟩
  intro s hs
  apply hget
  apply List.getElem?_replicate_of_lt
  unfold MAX_STATION_NUMBER
  omega

theorem entryStep_min (e : ObservationExtreme) (o : Observation) :
    (entryStep e o).min = e.min ∨ (entryStep e o).min = some o := by
  unfold entryStep
  by_cases h0 : e.min.isSome = true
  · by_cases c1 : compareObservations (some o) e.min > 0
    · by_cases c2 : compareObservations (some o) e.max = 0 <;> simp [h0, c1, c2]
    · by_cases c2 : compareObservations (some o) e.max = 0 <;> simp [h0, c1, c2]
  · simp [h0]

theorem entryStep_max (e : ObservationExtreme) (o : Observation) :
    (entryStep e o).max = e.max ∨ (entryStep e o).max = some o := by
  unfold entryStep
  by_cases h0 : e.min.isSome = true
  · by_cases c1 : compareObservations (some o) e.min > 0
    · by_cases c2 : compareObservations (some o) e.max = 0 <;> simp [h0, c1, c2]
    · by_cases c2 : compareObservations (some o) e.max = 0 <;> simp [h0, c1, c2]
  · simp [h0]

/-- The observations held by an entry come from the observations applied to it. -/
theorem foldl_entryStep_mem (P : Observation → Prop) :
    ∀ (l : List Observation) (e : ObservationExtreme),
      (∀ m, e.min = some m → P m) → (∀ m, e.max = some m → P m) → (∀ o ∈ l, P o) →
      (∀ m, (l.foldl entryStep e).min = some m → P m)
        ∧ (∀ m, (l.foldl entryStep e).max = some m → P m) := by
  intro l
  induction l with
  | nil => intro e h1 h2 _; exact ⟨h1, h2⟩
  | cons o rest ih =>
    intro e h1 h2 hl
    have ho : P o := hl o (List.mem_cons_self _ _)
    apply ih (entryStep e o) ?_ ?_ (fun x hx => hl x (List.mem_cons_of_mem _ hx))
    · intro m hm
      rcases entryStep_min e o with h | h
      · exact h1 m (h ▸ hm)
      · rw [h] at hm
        exact (Option.some.inj hm) ▸ ho
    · intro m hm
      rcases entryStep_max e o with h | h
      · exact h2 m (h ▸ hm)
      · rw [h] at hm
        exact (Option.some.inj hm) ▸ ho

theorem stationEntry_mem (s : Nat) (obs : List Observation) :
    (∀ m, (stationEntry s obs).min = some m → m ∈ obs ∧ m.station_id = (s : Int))
      ∧ (∀ m, (stationEntry s obs).max = some m → m ∈ obs ∧ m.station_id = (s : Int)) := by
  apply foldl_entryStep_mem (fun m => m ∈ obs ∧ m.station_id = (s : Int))
  · intro m hm; cases hm
  · intro m hm; cases hm
  · intro o ho
    have := List.mem_filter.1 ho
    exact ⟨this.1, by simpa using this.2⟩

theorem lookup_lt_extremes {extremes : List ObservationExtreme} {s : Nat}
    {e : ObservationExtreme} (h : extremes[s]? = some e) : s < extremes.length := by
  by_contra hlt
  rw [List.getElem?_eq_none (Nat.le_of_not_lt hlt)] at h
  cases h

theorem inBounds_of_inRange (obs : List Observation) (hr : ∀ o ∈ obs, o.StationInRange) :
    ∀ o ∈ obs, o.StationInBounds := by
  intro o ho
  obtain ⟨h1, h2⟩ := hr o ho
  exact ⟨by omega, h2⟩

/-- C11: when all station numbers index the array, the first loop of
`print_station_extremes` is defined, and for every station `s` in 1..250 that has exactly
one observation `o` in the input, the final entry of `s` has `min = o` and `max = o`. -/
theorem single_observation_entry (obs : List Observation)
    (hr : ∀ o ∈ obs, o.StationInBounds) :
    ∃ extremes, finalExtremes obs = some extremes
      ∧ ∀ (s : Nat) (o : Observation), 1 ≤ s → s ≤ 250 →
          obs.filter (fun x => x.station_id = (s : Int)) = [o] →
          extremes[s]? = some { min := some o, max := some o } := by
  obtain ⟨extremes, hfinal, _, hget⟩ := finalExtremes_eq obs hr
  refine ⟨extremes, hfinal, ?_⟩
  intro s o _ hs hone
  rw [hget s hs]
  unfold stationEntry
  rw [hone]
  rfl

/-- C11 (witness): Scenario A, the single observation (2020,1,1,0,0,1,5.0). -/
theorem single_observation_entry_witness :
    (∀ o ∈ ([⟨⟨2020, 1, 1⟩, 0, 0, 1, 5⟩] : List Observation), o.StationInBounds)
    ∧ ∃ extremes, finalExtremes [⟨⟨2020, 1, 1⟩, 0, 0, 1, 5⟩] = some extremes
      ∧ ∀ (s : Nat) (o : Observation), 1 ≤ s → s ≤ 250 →
          ([⟨⟨2020, 1, 1⟩, 0, 0, 1, 5⟩] : List Observation).filter
            (fun x => x.station_id = (s : Int)) = [o] →
          extremes[s]? = some { min := some o, max := some o } :=
  ⟨by decide, single_observation_entry _ (by decide)⟩

/-- C12: there are two observations `a`, `b` at the same station, `b` chronologically
later than `a` and warmer than `a`, for which `print_station_extremes` reports `b` as the
minimum of the station: 5.0 degrees on 2020-01-31 followed by 9.0 degrees on 2020-02-01,
where the later observation has the smaller day. -/
theorem later_warmer_minimum :
    ∃ a b : Observation, a.station_id = b.station_id ∧ a.earlier b
      ∧ a.temperature < b.temperature
      ∧ ∃ lines, print_station_extremes [a, b] = some lines
        ∧ ∃ l ∈ lines, l.station_id = a.station_id ∧ l.min = b := by
  refine ⟨⟨⟨2020, 1, 31⟩, 0, 0, 1, 5⟩, ⟨⟨2020, 2, 1⟩, 0, 0, 1, 9⟩, rfl, by decide, by decide,
    [⟨1, ⟨⟨2020, 2, 1⟩, 0, 0, 1, 9⟩, ⟨⟨2020, 1, 31⟩, 0, 0, 1, 5⟩⟩], ?_,
    _, List.mem_singleton_self _, rfl, rfl⟩
  rw [print_station_extremes_eq _ (by decide) (by decide)]
  decide

/-- C15 (failing input): station 5 on 2020-06-15 with 1.0 degrees at 12:30 followed by 2.0
degrees at 12:29. The second observation has the smaller minute, so it becomes the
minimum and does not become the maximum: the reported minimum, 2.0, is above the reported
maximum, 1.0. -/
theorem reported_minimum_above_maximum :
    ∃ l, print_station_extremes
          [⟨⟨2020, 6, 15⟩, 12, 30, 5, 1⟩, ⟨⟨2020, 6, 15⟩, 12, 29, 5, 2⟩] = some [l]
      ∧ l.station_id = 5 ∧ l.min.temperature = 2 ∧ l.max.temperature = 1
      ∧ l.max.temperature < l.min.temperature := by
  refine ⟨⟨5, ⟨⟨2020, 6, 15⟩, 12, 29, 5, 2⟩, ⟨⟨2020, 6, 15⟩, 12, 30, 5, 1⟩⟩, ?_, rfl, rfl, rfl,
    by decide⟩
  rw [print_station_extremes_eq _ (by decide) (by decide)]
  decide

theorem entryStep_min_isSome (e : ObservationExtreme) (o : Observation) :
    (entryStep e o).min.isSome = true := by
  rcases entryStep_min e o with h | h
  · by_cases h0 : e.min.isSome = true
    · rw [h]; exact h0
    · have : entryStep e o = { min := some o, max := some o } := by
        unfold entryStep
        simp [h0]
      rw [this]
      rfl
  · rw [h]
    rfl

theorem foldl_entryStep_min_isSome :
    ∀ (l : List Observation) (e : ObservationExtreme), e.min.isSome = true →
      (l.foldl entryStep e).min.isSome = true := by
  intro l
  induction l with
  | nil => intro e h; exact h
  | cons o rest ih =>
    intro e _
    exact ih _ (entryStep_min_isSome e o)

/-- A station with an observation in the input has its entry set. -/
theorem stationEntry_isSome (s : Nat) (obs : List Observation)
    (h : ∃ o ∈ obs, o.station_id = (s : Int)) : (stationEntry s obs).min.isSome = true := by
  obtain ⟨o, ho, hs⟩ := h
  unfold stationEntry
  cases hf : obs.filter (fun x => x.station_id = (s : Int)) with
  | nil =>
    have : o ∈ obs.filter (fun x => x.station_id = (s : Int)) :=
      List.mem_filter.2 ⟨ho, by simpa using hs⟩
    rw [hf] at this
    cases this
  | cons y rest =>
    rw [List.foldl_cons]
    exact foldl_entryStep_min_isSome rest _ (entryStep_min_isSome _ y)

/-- C18: for observations with station numbers in 1..250 the first loop of
`print_station_extremes` is defined, and for every entry of the final array, at index
`s`: when the minimum is set, the maximum is set as well, and both are observations of
the input whose station number is `s`; when the minimum is not set, neither is the
maximum; and the minimum is set whenever the input has an observation of station `s`. -/
theorem extremes_are_station_observations (obs : List Observation)
    (hr : ∀ o ∈ obs, o.StationInRange) :
    ∃ extremes, finalExtremes obs = some extremes
      ∧ ∀ (s : Nat) (e : ObservationExtreme), extremes[s]? = some e →
          (∀ mn, e.min = some mn →
            ∃ mx, e.max = some mx
              ∧ mn ∈ obs ∧ mn.station_id = (s : Int)
              ∧ mx ∈ obs ∧ mx.station_id = (s : Int))
          ∧ (e.min = none → e.max = none)
          ∧ ((∃ o ∈ obs, o.station_id = (s : Int)) → e.min.isSome = true) := by
  obtain ⟨extremes, hfinal, hlen, hget⟩ := finalExtremes_eq obs (inBounds_of_inRange obs hr)
  refine ⟨extremes, hfinal, ?_⟩
  intro s e he
  have hs : s ≤ 250 := by
    have := lookup_lt_extremes he
    rw [hlen] at this
    unfold MAX_STATION_NUMBER at this
    omega
  rw [hget s hs] at he
  have := Option.some.inj he
  subst this
  obtain ⟨hmin, hmax⟩ := stationEntry_mem s obs
  refine ⟨?_, ?_, stationEntry_isSome s obs⟩
  · intro mn hmn
    rcases stationEntry_entryOf s obs with ⟨h1, _⟩ | ⟨mn1, mx, h1, h2, _, _⟩
    · rw [h1] at hmn
      cases hmn
    · obtain ⟨ha, hb⟩ := hmin mn hmn
      obtain ⟨hc, hd⟩ := hmax mx h2
      exact ⟨mx, h2, ha, hb, hc, hd⟩
  · intro hnone
    rcases stationEntry_entryOf s obs with ⟨_, h2⟩ | ⟨mn1, mx, h1, _, _, _⟩
    · exact h2
    · rw [h1] at hnone
      cases hnone

/-- C18 (witness): observations at stations 7, 2 and 7. -/
theorem extremes_are_station_observations_witness :
    (∀ o ∈ ([⟨⟨2020, 1, 1⟩, 0, 0, 7, 5⟩, ⟨⟨2020, 1, 1⟩, 0, 0, 2, 3⟩,
              ⟨⟨2020, 1, 2⟩, 0, 0, 7, 4⟩] : List Observation), o.StationInRange)
    ∧ ∃ extremes, finalExtremes
          [⟨⟨2020, 1, 1⟩, 0, 0, 7, 5⟩, ⟨⟨2020, 1, 1⟩, 0, 0, 2, 3⟩, ⟨⟨2020, 1, 2⟩, 0, 0, 7, 4⟩]
          = some extremes
      ∧ ∀ (s : Nat) (e : ObservationExtreme), extremes[s]? = some e →
          (∀ mn, e.min = some mn →
            ∃ mx, e.max = some mx
              ∧ mn ∈ ([⟨⟨2020, 1, 1⟩, 0, 0, 7, 5⟩, ⟨⟨2020, 1, 1⟩, 0, 0, 2, 3⟩,
                  ⟨⟨2020, 1, 2⟩, 0, 0, 7, 4⟩] : List Observation)
              ∧ mn.station_id = (s : Int)
              ∧ mx ∈ ([⟨⟨2020, 1, 1⟩, 0, 0, 7, 5⟩, ⟨⟨2020, 1, 1⟩, 0, 0, 2, 3⟩,
                  ⟨⟨2020, 1, 2⟩, 0, 0, 7, 4⟩] : List Observation)
              ∧ mx.station_id = (s : Int))
          ∧ (e.min = none → e.max = none)
          ∧ ((∃ o ∈ ([⟨⟨2020, 1, 1⟩, 0, 0, 7, 5⟩, ⟨⟨2020, 1, 1⟩, 0, 0, 2, 3⟩,
                  ⟨⟨2020, 1, 2⟩, 0, 0, 7, 4⟩] : List Observation), o.station_id = (s : Int))
              → e.min.isSome = true) :=
  ⟨by decide, extremes_are_station_observations _ (by decide)⟩

/-! ## Sequences of insertions and the date key -/

theorem set_lookup_self {heap : List Node} {r : Nat} {n : Node} (h : heap[r]? = some n) :
    heap.set r n = heap := by
  apply List.ext_getElem?
  intro i
  rw [lookup_set]
  by_cases hri : r = i
  · subst hri
    rw [if_pos rfl, if_pos (lookup_lt h), h]
  · rw [if_neg hri]

/-- A call of `listSortedInsert` on a represented chain returns a node of the new heap and
leaves a represented chain, whose buckets are those of `bucketInsert` with the date that
the returned node carries. -/
theorem insert_represents (heap : List Node) (l : HashList) (ns : List (Nat × Node))
    (key : Int) (value : ℚ) (h : Represents heap l ns) :
    ∃ heap1 l1 r n ns1,
      listSortedInsert heap (some l) key value = some (heap1, some l1, some r)
      ∧ heap1[r]? = some n
      ∧ Represents heap1 l1 ns1
      ∧ ns1.map (fun x => x.2.bucket)
          = bucketInsert (ns.map (fun x => x.2.bucket)) key value n.date := by
  obtain ⟨heap1, l1, r, heap2, _, hins, hup, _, _⟩ :=
    insert_simulates heap l ns key value { year := 0, month := 0, day := 0 } h
  obtain ⟨n, hn, _⟩ := update_eq hup
  obtain ⟨heap1a, l1a, ra, heap2a, ns2, hins2, hup2, hrep2, hbs2⟩ :=
    insert_simulates heap l ns key value n.date h
  rw [hins] at hins2
  have e := Option.some.inj hins2
  simp only [Prod.mk.injEq, Option.some.injEq] at e
  obtain ⟨e1, e2, e3⟩ := e
  subst e1 e2 e3
  rw [update_of_lookup _ hn] at hup2
  have e4 := Option.some.inj hup2
  have e5 : heap1.set r { n with date := n.date } = heap1 := set_lookup_self hn
  rw [e5] at e4
  subst e4
  exact ⟨heap1, l1, r, n, ns2, hins, hn, hrep2, hbs2⟩

theorem bucketScan_count (key : Int) (value : ℚ) (date : Date) :
    ∀ bs : List Bucket, (∀ b ∈ bs, 1 ≤ b.count) →
      ∀ b ∈ bucketScan key value date bs, 1 ≤ b.count := by
  intro bs
  induction bs with
  | nil => intro _ b hb; cases hb
  | cons c rest ih =>
    intro h b hb
    have hc : 1 ≤ c.count := h c (List.mem_cons_self _ _)
    have hrest : ∀ x ∈ rest, 1 ≤ x.count := fun x hx => h x (List.mem_cons_of_mem _ hx)
    unfold bucketScan at hb
    split at hb
    · rcases List.mem_cons.1 hb with rfl | hb
      · show 1 ≤ c.count + 1
        omega
      · exact hrest b hb
    · split at hb
      · exact h b hb
      · rcases List.mem_cons.1 hb with rfl | hb
        · exact hc
        · exact ih hrest b hb

/-- A round of insertion keeps every count at least one. -/
theorem bucketInsert_count (bs : List Bucket) (key : Int) (value : ℚ) (date : Date)
    (h : ∀ b ∈ bs, 1 ≤ b.count) : ∀ b ∈ bucketInsert bs key value date, 1 ≤ b.count := by
  intro b hb
  unfold bucketInsert at hb
  split at hb
  · split at hb
    · rcases List.mem_cons.1 hb with rfl | hb
      · exact le_refl _
      · exact h b hb
    · split at hb
      · rcases List.mem_append.1 hb with hb | hb
        · exact h b hb
        · rw [List.mem_singleton] at hb
          subst hb
          exact le_refl _
      · exact bucketScan_count key value date bs h b hb
  · rw [List.mem_singleton] at hb
    subst hb
    exact le_refl _

/-- Any sequence of calls of `listSortedInsert` on a represented chain is defined and
leaves a represented chain with all counts at least one. -/
theorem insertCalls_represents :
    ∀ (calls : List (Int × ℚ)) (heap : List Node) (l : HashList) (ns : List (Nat × Node)),
      Represents heap l ns → (∀ x ∈ ns, 1 ≤ x.2.no_of_observations) →
      ∃ heap1 l1 ns1, insertCalls heap (some l) calls = some (heap1, some l1)
        ∧ Represents heap1 l1 ns1 ∧ ∀ x ∈ ns1, 1 ≤ x.2.no_of_observations := by
  intro calls
  induction calls with
  | nil =>
    intro heap l ns h hc
    exact ⟨heap, l, ns, rfl, h, hc⟩
  | cons call rest ih =>
    intro heap l ns h hc
    obtain ⟨heap1, l1, r, n, ns1, hins, _, hrep, hbs⟩ :=
      insert_represents heap l ns call.1 call.2 h
    have hc1 : ∀ x ∈ ns1, 1 ≤ x.2.no_of_observations := by
      intro x hx
      have hmem : x.2.bucket ∈ ns1.map (fun y => y.2.bucket) :=
        List.mem_map.2 ⟨x, hx, rfl⟩
      rw [hbs] at hmem
      refine bucketInsert_count _ _ _ _ ?_ _ hmem
      intro b hb
      obtain ⟨y, hy, rfl⟩ := List.mem_map.1 hb
      exact hc y hy
    obtain ⟨heap2, l2, ns2, hrest, hrep2, hc2⟩ := ih heap1 l1 ns1 hrep hc1
    refine ⟨heap2, l2, ns2, ?_, hrep2, hc2⟩
    simp only [insertCalls, hins]
    exact hrest

theorem represents_walk {heap : List Node} {l : HashList} {ns : List (Nat × Node)}
    (h : Represents heap l ns) : walk heap.length heap l.head = some (ns.map Prod.snd) := by
  have hlen : ns.length ≤ heap.length := by
    have := nodup_length_le heap.length _ h.2.2 (represents_addr_lt h)
    simpa using this
  exact walk_of_isChain ns _ _ h.1 hlen

/-- In a run of the insertion loop every bucket has a count of at least one. -/
theorem runInv_count (bs : List Bucket) (done : List Observation) (h : RunInv bs done) :
    ∀ b ∈ bs, 1 ≤ b.count := by
  intro b hb
  obtain ⟨hk, ⟨o, ho, hd⟩, _, hcount⟩ := h.2.1 b hb
  have hko : keyOf o = b.key := by
    unfold keyOf
    rw [hd, hk]
    rfl
  have hmem : o.temperature ∈ keyTemps b.key done := by
    unfold keyTemps
    apply List.mem_map_of_mem
    apply List.mem_filter.2
    exact ⟨ho, by simpa using hko⟩
  have hpos : 0 < (keyTemps b.key done).length := List.length_pos_of_mem hmem
  rw [hcount]
  exact_mod_cast hpos

/-- C16: after any sequence of `listSortedInsert` calls that starts from the empty list of
`listCreate`, the walk over the `next` links from the list head is defined and every
bucket it reaches has `no_of_observations >= 1`. The same holds for the buckets that the
printing loop of `print_daily_averages` visits, so the divisor of
`value / no_of_observations` is never zero. -/
theorem bucket_count_positive :
    (∀ calls : List (Int × ℚ), ∃ heap l ns,
        insertCalls [] listCreate calls = some (heap, some l)
        ∧ walk heap.length heap l.head = some ns
        ∧ ∀ n ∈ ns, 1 ≤ n.no_of_observations)
    ∧ (∀ (obs : List Observation) (ns : List Node), dailyBuckets obs = some ns →
        ∀ n ∈ ns, 1 ≤ n.no_of_observations ∧ (n.no_of_observations : ℚ) ≠ 0) := by
  constructor
  · intro calls
    obtain ⟨heap, l, ns, hcalls, hrep, hc⟩ := insertCalls_represents calls [] _ []
      represents_init (fun x hx => absurd hx (List.not_mem_nil _))
    refine ⟨heap, l, ns.map Prod.snd, hcalls, represents_walk hrep, ?_⟩
    intro n hn
    obtain ⟨x, hx, rfl⟩ := List.mem_map.1 hn
    exact hc x hx
  · intro obs ns hns n hn
    have hkeys := dailyBuckets_defined obs ns hns
    obtain ⟨ns1, hns1, hbs⟩ := dailyBuckets_eq obs hkeys
    rw [hns] at hns1
    have e := Option.some.inj hns1
    subst e
    have hin : n.bucket ∈ bucketRun [] obs := hbs ▸ List.mem_map_of_mem _ hn
    have hcount : 1 ≤ n.no_of_observations :=
      runInv_count _ _ (runInv_final obs hkeys) _ hin
    refine ⟨hcount, ?_⟩
    have : (0 : Int) < n.no_of_observations := by omega
    exact_mod_cast (ne_of_gt this)

/-- C16 (witness): the buckets of Scenario B, two observations of one date. -/
theorem bucket_count_positive_witness :
    dailyBuckets [⟨⟨2020, 1, 1⟩, 8, 0, 2, 3⟩, ⟨⟨2020, 1, 1⟩, 9, 0, 2, 7⟩]
        = some [⟨20200101, 3 + 7, ⟨2020, 1, 1⟩, 2, none, none⟩]
    ∧ ∀ n ∈ ([⟨20200101, 3 + 7, ⟨2020, 1, 1⟩, 2, none, none⟩] : List Node),
        1 ≤ n.no_of_observations ∧ (n.no_of_observations : ℚ) ≠ 0 := by
  have h : dailyBuckets [⟨⟨2020, 1, 1⟩, 8, 0, 2, 3⟩, ⟨⟨2020, 1, 1⟩, 9, 0, 2, 7⟩]
      = some [⟨20200101, 3 + 7, ⟨2020, 1, 1⟩, 2, none, none⟩] := by rfl
  exact ⟨h, bucket_count_positive.2 _ _ h⟩

/-- C17: for dates with year in 2015..2020, month in 1..12 and day in 1..31 the key
computed in `print_daily_averages` is `year * 10000 + month * 100 + day`; the key of one
date is below the key of another exactly when the first date is before the second by
year, then month, then day; and dates with equal keys are equal. -/
theorem dateKey_order_preserving (d1 d2 : Date) (h1 : d1.InRange) (h2 : d2.InRange) :
    dateKey d1 = some (d1.year * 10000 + d1.month * 100 + d1.day)
    ∧ ∃ k1 k2, dateKey d1 = some k1 ∧ dateKey d2 = some k2
        ∧ (k1 < k2 ↔ d1.before d2) ∧ (k1 = k2 → d1 = d2) := by
  refine ⟨dateKey_inRange d1 h1, _, _, dateKey_inRange d1 h1, dateKey_inRange d2 h2,
    dateKey_lt_iff d1 d2 h1 h2 _ _ (dateKey_inRange d1 h1) (dateKey_inRange d2 h2), ?_⟩
  intro e
  apply dateKey_injective d1 d2 h1 h2
  rw [dateKey_inRange d1 h1, dateKey_inRange d2 h2, e]

/-- C17 (witness): the dates 2019-12-31 and 2020-01-01. -/
theorem dateKey_order_preserving_witness :
    (⟨2019, 12, 31⟩ : Date).InRange ∧ (⟨2020, 1, 1⟩ : Date).InRange
    ∧ dateKey ⟨2019, 12, 31⟩ = some (2019 * 10000 + 12 * 100 + 31)
    ∧ ∃ k1 k2, dateKey ⟨2019, 12, 31⟩ = some k1 ∧ dateKey ⟨2020, 1, 1⟩ = some k2
        ∧ (k1 < k2 ↔ (⟨2019, 12, 31⟩ : Date).before ⟨2020, 1, 1⟩)
        ∧ (k1 = k2 → (⟨2019, 12, 31⟩ : Date) = ⟨2020, 1, 1⟩) :=
  ⟨by decide, by decide, dateKey_order_preserving ⟨2019, 12, 31⟩ ⟨2020, 1, 1⟩
    (by decide) (by decide)⟩

/-- C19: on every list reached from `listCreate` by a sequence of `listSortedInsert`
calls, and for every key and value, `listSortedInsert` returns a pointer to a node of the
heap, not `NULL`. In `print_daily_averages`, whenever every key fits its buffer, the
insertion loop is defined: each returned pointer can be dereferenced for the assignment
of the date. -/
theorem listSortedInsert_returns_node :
    (∀ (calls : List (Int × ℚ)) (key : Int) (value : ℚ), ∃ heap l,
        insertCalls [] listCreate calls = some (heap, some l)
        ∧ ∃ heap1 l1 r n,
            listSortedInsert heap (some l) key value = some (heap1, some l1, some r)
            ∧ heap1[r]? = some n)
    ∧ (∀ obs : List Observation, (∀ o ∈ obs, (dateKey o.obs_date).isSome) →
        ∃ heap l, insertLoop [] listCreate obs = some (heap, some l)) := by
  constructor
  · intro calls key value
    obtain ⟨heap, l, ns, hcalls, hrep, _⟩ := insertCalls_represents calls [] _ []
      represents_init (fun x hx => absurd hx (List.not_mem_nil _))
    obtain ⟨heap1, l1, r, n, _, hins, hn, _, _⟩ := insert_represents heap l ns key value hrep
    exact ⟨heap, l, hcalls, heap1, l1, r, n, hins, hn⟩
  · intro obs hkeys
    obtain ⟨heap, l, _, hloop, _, _⟩ := insertLoop_simulates obs [] _ [] represents_init hkeys
    exact ⟨heap, l, hloop⟩

/-- C19 (witness): the insertion loop on three dates, the last between the other two. -/
theorem listSortedInsert_returns_node_witness :
    (∀ o ∈ ([⟨⟨2020, 1, 1⟩, 0, 0, 1, 5⟩, ⟨⟨2020, 1, 3⟩, 0, 0, 1, 7⟩,
              ⟨⟨2020, 1, 2⟩, 0, 0, 1, 9⟩] : List Observation), (dateKey o.obs_date).isSome)
    ∧ ∃ heap l, insertLoop [] listCreate
        [⟨⟨2020, 1, 1⟩, 0, 0, 1, 5⟩, ⟨⟨2020, 1, 3⟩, 0, 0, 1, 7⟩, ⟨⟨2020, 1, 2⟩, 0, 0, 1, 9⟩]
        = some (heap, some l) :=
  ⟨by decide, listSortedInsert_returns_node.2 _ (by decide)⟩

/-! ## The dates of the daily report -/

/-- In a run every bucket key is the key of an observation inserted so far. -/
theorem runInv_key_of_done (bs : List Bucket) (done : List Observation) (h : RunInv bs done) :
    ∀ b ∈ bs, ∃ x ∈ done, keyOf x = b.key := by
  intro b hb
  obtain ⟨hk, ⟨o, ho, hd⟩, _, _⟩ := h.2.1 b hb
  refine ⟨o, ho, ?_⟩
  unfold keyOf
  rw [hd, hk]
  rfl

/-- The keys of the chain after one more observation: the keys before, and the key of the
observation when it is strictly below or strictly above the keys of all observations
inserted before. -/
theorem keys_step (bs : List Bucket) (done : List Observation) (o : Observation)
    (h : RunInv bs done) (k : Int) :
    k ∈ (bucketInsert bs (keyOf o) o.temperature o.obs_date).map Bucket.key
      ↔ k ∈ bs.map Bucket.key
        ∨ (keyOf o = k
          ∧ ((∀ x ∈ done, keyOf o < keyOf x) ∨ (∀ x ∈ done, keyOf x < keyOf o))) := by
  obtain ⟨hs, hb, hd⟩ := h
  cases bs with
  | nil =>
    have hdone : done = [] := runInv_done_nil done ⟨hs, hb, hd⟩
    subst hdone
    rw [bucketInsert_nil]
    simp [eq_comm]
  | cons b0 rest =>
    cases hl : (b0 :: rest).getLast? with
    | none => simp at hl
    | some t =>
      have hold : ∀ x ∈ done, b0.key ≤ keyOf x ∧ keyOf x ≤ t.key := by
        intro x hx
        obtain ⟨h0, t0, hh, ht, h1, h2⟩ := hd x hx
        rw [List.head?_cons] at hh
        rw [hl] at ht
        have e1 := Option.some.inj hh
        have e2 := Option.some.inj ht
        subst e1
        subst e2
        exact ⟨h1, h2⟩
      obtain ⟨x0, hx0, hk0⟩ := runInv_key_of_done _ _ ⟨hs, hb, hd⟩ b0 (List.mem_cons_self _ _)
      obtain ⟨xt, hxt, hkt0⟩ := runInv_key_of_done _ _ ⟨hs, hb, hd⟩ t
        (List.mem_of_getLast?_eq_some hl)
      by_cases hk : keyOf o < b0.key
      · rw [bucketInsert_head b0 rest _ _ _ hk, List.map_cons, List.mem_cons]
        have hcond : ∀ x ∈ done, keyOf o < keyOf x := fun x hx => by
          have := (hold x hx).1
          omega
        constructor
        · rintro (h1 | h1)
          · exact Or.inr ⟨h1.symm, Or.inl hcond⟩
          · exact Or.inl h1
        · rintro (h1 | ⟨h1, _⟩)
          · exact Or.inr h1
          · exact Or.inl h1.symm
      · by_cases hkt : keyOf o > t.key
        · rw [bucketInsert_tail b0 t rest _ _ _ hk hl hkt, List.map_append, List.mem_append]
          have hcond : ∀ x ∈ done, keyOf x < keyOf o := fun x hx => by
            have := (hold x hx).2
            omega
          constructor
          · rintro (h1 | h1)
            · exact Or.inl h1
            · simp only [List.map_cons, List.map_nil, List.mem_singleton] at h1
              exact Or.inr ⟨h1.symm, Or.inr hcond⟩
          · rintro (h1 | ⟨h1, _⟩)
            · exact Or.inl h1
            · right
              simp only [List.map_cons, List.map_nil, List.mem_singleton]
              exact h1.symm
        · rw [bucketInsert_scan b0 t rest _ _ _ hk hl hkt,
            bucketScan_sorted _ _ _ _ hs, map_touch_key]
          constructor
          · intro h1
            exact Or.inl h1
          · rintro (h1 | ⟨_, hc | hc⟩)
            · exact h1
            · have := hc x0 hx0
              omega
            · have := hc xt hxt
              omega

theorem keyEnters_snoc (k : Int) (done : List Observation) (o : Observation) :
    KeyEnters k (done ++ [o])
      ↔ KeyEnters k done
        ∨ (keyOf o = k
          ∧ ((∀ x ∈ done, keyOf o < keyOf x) ∨ (∀ x ∈ done, keyOf x < keyOf o))) := by
  constructor
  · rintro ⟨pre, x, post, hsplit, hk, hc⟩
    rcases List.eq_nil_or_concat post with rfl | ⟨post1, y, rfl⟩
    · have e : done ++ [o] = pre ++ [x] := hsplit
      have e1 := List.append_inj' e rfl
      obtain ⟨e2, e3⟩ := e1
      have e4 : o = x := by simpa using e3
      subst e2 e4
      exact Or.inr ⟨hk, hc⟩
    · have e : done ++ [o] = (pre ++ x :: post1) ++ [y] := by
        rw [hsplit]; simp
      have e1 := (List.append_inj' e rfl).1
      exact Or.inl ⟨pre, x, post1, e1, hk, hc⟩
  · rintro (⟨pre, x, post, hsplit, hk, hc⟩ | ⟨hk, hc⟩)
    · exact ⟨pre, x, post ++ [o], by rw [hsplit]; simp, hk, hc⟩
    · exact ⟨done, o, [], rfl, hk, hc⟩

theorem bucketRun_snoc (done : List Observation) (o : Observation) :
    bucketRun [] (done ++ [o])
      = bucketInsert (bucketRun [] done) (keyOf o) o.temperature o.obs_date := by
  unfold bucketRun
  rw [List.foldl_append]
  rfl

/-- The keys of the chain after a run are the keys that arrive strictly below or strictly
above all keys before them. -/
theorem keys_run (k : Int) :
    ∀ obs : List Observation, (∀ o ∈ obs, (dateKey o.obs_date).isSome) →
      (k ∈ (bucketRun [] obs).map Bucket.key ↔ KeyEnters k obs) := by
  intro obs
  induction obs using List.reverseRecOn with
  | nil =>
    intro _
    constructor
    · intro h; cases h
    · rintro ⟨pre, x, post, hsplit, _⟩
      cases pre <;> cases hsplit
  | append_singleton done o ih =>
    intro hkeys
    have hkeys1 : ∀ x ∈ done, (dateKey x.obs_date).isSome :=
      fun x hx => hkeys x (List.mem_append_left _ hx)
    rw [bucketRun_snoc, keys_step _ done o (runInv_final done hkeys1) k, ih hkeys1,
      keyEnters_snoc]

theorem keyOf_inRange (o : Observation) (h : o.obs_date.InRange) :
    dateKey o.obs_date = some (keyOf o) := by
  apply keyOf_eq
  rw [dateKey_inRange _ h]
  rfl

theorem keyOf_eq_iff (a b : Observation) (ha : a.obs_date.InRange) (hb : b.obs_date.InRange) :
    keyOf a = keyOf b ↔ a.obs_date = b.obs_date := by
  constructor
  · intro h
    apply dateKey_injective _ _ ha hb
    rw [keyOf_inRange a ha, keyOf_inRange b hb, h]
  · intro h
    unfold keyOf
    rw [h]

/-- For dates in the documented range, the buckets visited by the printing loop carry
exactly the dates whose first occurrence has a key strictly below or strictly above the
keys of all earlier observations. -/
theorem bucket_dates_exact (obs : List Observation) (hr : ∀ o ∈ obs, o.obs_date.InRange)
    (ns : List Node) (hbs : ns.map Node.bucket = bucketRun [] obs) (d : Date) :
    (∃ n ∈ ns, n.date = d) ↔ FirstOccurrenceExtreme d obs := by
  have hkeys := inRange_defined obs hr
  have hinv := runInv_final obs hkeys
  constructor
  · rintro ⟨n, hn, rfl⟩
    have hin : n.bucket ∈ bucketRun [] obs := hbs ▸ List.mem_map_of_mem _ hn
    obtain ⟨hk, ⟨o0, ho0, hd0⟩, _, _⟩ := hinv.2.1 _ hin
    have hrd : n.date.InRange := by
      have := hr o0 ho0
      rw [hd0] at this
      exact this
    have hkmem : n.key ∈ (bucketRun [] obs).map Bucket.key :=
      List.mem_map.2 ⟨n.bucket, hin, rfl⟩
    obtain ⟨pre, o, post, hsplit, hko, hc⟩ := (keys_run n.key obs hkeys).1 hkmem
    have ho : o ∈ obs := by rw [hsplit]; simp
    have hdate : o.obs_date = n.date := by
      apply dateKey_injective _ _ (hr o ho) hrd
      rw [keyOf_inRange o (hr o ho), hko]
      exact hk.symm
    refine ⟨pre, o, post, hsplit, hdate, ?_, hc⟩
    intro x hx hxd
    have hxo : x ∈ obs := by rw [hsplit]; simp [hx]
    have hkx : keyOf x = keyOf o :=
      (keyOf_eq_iff x o (hr x hxo) (hr o ho)).2 (hxd.trans hdate.symm)
    rcases hc with hc | hc
    · have := hc x hx
      omega
    · have := hc x hx
      omega
  · rintro ⟨pre, o, post, hsplit, hdate, _, hc⟩
    have ho : o ∈ obs := by rw [hsplit]; simp
    have hkmem := (keys_run (keyOf o) obs hkeys).2 ⟨pre, o, post, hsplit, rfl, hc⟩
    obtain ⟨b, hb, hbk⟩ := List.mem_map.1 hkmem
    rw [← hbs] at hb
    obtain ⟨n, hn, rfl⟩ := List.mem_map.1 hb
    refine ⟨n, hn, ?_⟩
    have hin : n.bucket ∈ bucketRun [] obs := hbs ▸ List.mem_map_of_mem _ hn
    obtain ⟨hk, ⟨o0, ho0, hd0⟩, _, _⟩ := hinv.2.1 _ hin
    have hrd : n.date.InRange := by
      have := hr o0 ho0
      rw [hd0] at this
      exact this
    rw [← hdate]
    apply dateKey_injective _ _ hrd (hr o ho)
    rw [keyOf_inRange o (hr o ho)]
    have hk1 : dateKey n.date = some n.key := hk
    have hbk1 : n.key = keyOf o := hbk
    rw [hk1, hbk1]

theorem mem_lines_iff (ns : List Node) (d : Date) :
    (∃ l ∈ ns.map averageLine, l.date = d) ↔ ∃ n ∈ ns, n.date = d := by
  constructor
  · rintro ⟨l, hl, hd⟩
    obtain ⟨n, hn, rfl⟩ := List.mem_map.1 hl
    exact ⟨n, hn, hd⟩
  · rintro ⟨n, hn, hd⟩
    exact ⟨averageLine n, List.mem_map_of_mem _ hn, hd⟩

/-- C13: for observations with dates in the documented range `print_daily_averages`
prints a report, and a date `d` has a line in it if and only if, at the first occurrence
of `d` in the input, the key of `d` is strictly smaller than the keys of all earlier
observations or strictly larger than the keys of all earlier observations (which holds
for the first observation of the input). -/
theorem reported_dates_exact (obs : List Observation)
    (hr : ∀ o ∈ obs, o.obs_date.InRange) :
    ∃ lines, print_daily_averages obs = some lines
      ∧ ∀ d : Date, (∃ l ∈ lines, l.date = d) ↔ FirstOccurrenceExtreme d obs := by
  obtain ⟨ns, hns, hbs⟩ := dailyBuckets_eq obs (inRange_defined obs hr)
  refine ⟨_, print_daily_averages_eq obs ns hns, ?_⟩
  intro d
  rw [mem_lines_iff]
  exact bucket_dates_exact obs hr ns hbs d

/-- C13 (witness): the dates 2020-01-01, 2020-01-03, 2020-01-02 and 2019-12-31, in this
order. -/
theorem reported_dates_exact_witness :
    (∀ o ∈ ([⟨⟨2020, 1, 1⟩, 0, 0, 1, 5⟩, ⟨⟨2020, 1, 3⟩, 0, 0, 1, 7⟩,
              ⟨⟨2020, 1, 2⟩, 0, 0, 1, 9⟩, ⟨⟨2019, 12, 31⟩, 0, 0, 1, 4⟩] : List Observation),
        o.obs_date.InRange)
    ∧ ∃ lines, print_daily_averages
          [⟨⟨2020, 1, 1⟩, 0, 0, 1, 5⟩, ⟨⟨2020, 1, 3⟩, 0, 0, 1, 7⟩,
           ⟨⟨2020, 1, 2⟩, 0, 0, 1, 9⟩, ⟨⟨2019, 12, 31⟩, 0, 0, 1, 4⟩] = some lines
      ∧ ∀ d : Date, (∃ l ∈ lines, l.date = d) ↔ FirstOccurrenceExtreme d
          [⟨⟨2020, 1, 1⟩, 0, 0, 1, 5⟩, ⟨⟨2020, 1, 3⟩, 0, 0, 1, 7⟩,
           ⟨⟨2020, 1, 2⟩, 0, 0, 1, 9⟩, ⟨⟨2019, 12, 31⟩, 0, 0, 1, 4⟩] :=
  ⟨by decide, reported_dates_exact _ (by decide)⟩

/-- For dates in the documented range, the buckets visited by the printing loop are
strictly ascending by date. -/
theorem dailyBuckets_ascending (obs : List Observation)
    (hr : ∀ o ∈ obs, o.obs_date.InRange)
    (ns : List Node) (hbs : ns.map Node.bucket = bucketRun [] obs) :
    ns.Pairwise (fun a b => a.date.before b.date) := by
  obtain ⟨hsorted, hb, _⟩ := runInv_final obs (inRange_defined obs hr)
  rw [← hbs, List.map_map, List.pairwise_map] at hsorted
  refine hsorted.imp_of_mem ?_
  intro a b ha hb1 hlt
  have hain : a.bucket ∈ bucketRun [] obs := hbs ▸ List.mem_map_of_mem _ ha
  have hbin : b.bucket ∈ bucketRun [] obs := hbs ▸ List.mem_map_of_mem _ hb1
  obtain ⟨hka, ⟨oa, hoa, hda⟩, _, _⟩ := hb _ hain
  obtain ⟨hkb, ⟨ob, hob, hdb⟩, _, _⟩ := hb _ hbin
  have hra : a.bucket.date.InRange := hda ▸ hr oa hoa
  have hrb : b.bucket.date.InRange := hdb ▸ hr ob hob
  exact (dateKey_lt_iff _ _ hra hrb _ _ hka hkb).1 hlt

theorem keyOf_le_of_notAfter (a b : Observation) (ha : a.obs_date.InRange)
    (hb : b.obs_date.InRange) (h : a.obs_date = b.obs_date ∨ a.obs_date.before b.obs_date) :
    keyOf a ≤ keyOf b := by
  rcases h with h | h
  · exact le_of_eq ((keyOf_eq_iff a b ha hb).2 h)
  · exact le_of_lt ((dateKey_lt_iff _ _ ha hb _ _ (keyOf_inRange a ha)
      (keyOf_inRange b hb)).2 h)

/-- Dates that do not decrease from one observation to the next give keys that do not
decrease along the whole input. -/
theorem keys_nondecreasing :
    ∀ obs : List Observation, (∀ o ∈ obs, o.obs_date.InRange) →
      obs.Chain' (fun a b => a.obs_date = b.obs_date ∨ a.obs_date.before b.obs_date) →
      obs.Pairwise (fun a b => keyOf a ≤ keyOf b) := by
  intro obs
  induction obs with
  | nil => intro _ _; exact List.Pairwise.nil
  | cons a rest ih =>
    intro hr hc
    have hr1 : ∀ o ∈ rest, o.obs_date.InRange := fun o ho => hr o (List.mem_cons_of_mem _ ho)
    have ih1 := ih hr1 hc.tail
    rw [List.pairwise_cons]
    refine ⟨?_, ih1⟩
    cases rest with
    | nil => intro b hb; cases hb
    | cons y rest1 =>
      have hay : keyOf a ≤ keyOf y :=
        keyOf_le_of_notAfter a y (hr a (List.mem_cons_self _ _))
          (hr1 y (List.mem_cons_self _ _)) (List.chain'_cons.1 hc).1
      intro b hb
      rcases List.mem_cons.1 hb with rfl | hb
      · exact hay
      · exact le_trans hay ((List.pairwise_cons.1 ih1).1 b hb)

/-- The first occurrence of a date that occurs in the input. -/
theorem first_occurrence (d : Date) :
    ∀ obs : List Observation, (∃ o ∈ obs, o.obs_date = d) →
      ∃ pre o post, obs = pre ++ o :: post ∧ o.obs_date = d ∧ ∀ x ∈ pre, x.obs_date ≠ d := by
  intro obs
  induction obs with
  | nil => rintro ⟨o, ho, _⟩; cases ho
  | cons y rest ih =>
    rintro ⟨o, ho, hd⟩
    by_cases hy : y.obs_date = d
    · exact ⟨[], y, rest, rfl, hy, fun x hx => absurd hx (List.not_mem_nil x)⟩
    · have ho1 : o ∈ rest := by
        rcases List.mem_cons.1 ho with rfl | h
        · exact absurd hd hy
        · exact h
      obtain ⟨pre, o1, post, hsplit, hd1, hpre⟩ := ih ⟨o, ho1, hd⟩
      refine ⟨y :: pre, o1, post, by rw [hsplit]; rfl, hd1, ?_⟩
      intro x hx
      rcases List.mem_cons.1 hx with rfl | h
      · exact hy
      · exact hpre x h

/-- C14: for observations with dates in the documented range whose dates do not decrease
in input order, `print_daily_averages` prints a report whose lines are strictly
ascending by date and whose dates are exactly the dates of the input: one line for each
distinct date. -/
theorem ordered_input_all_dates (obs : List Observation)
    (hr : ∀ o ∈ obs, o.obs_date.InRange)
    (hord : obs.Chain' (fun a b => a.obs_date = b.obs_date ∨ a.obs_date.before b.obs_date)) :
    ∃ lines, print_daily_averages obs = some lines
      ∧ lines.Pairwise (fun a b => a.date.before b.date)
      ∧ ∀ d : Date, (∃ l ∈ lines, l.date = d) ↔ ∃ o ∈ obs, o.obs_date = d := by
  obtain ⟨ns, hns, hbs⟩ := dailyBuckets_eq obs (inRange_defined obs hr)
  refine ⟨_, print_daily_averages_eq obs ns hns, ?_, ?_⟩
  · rw [List.pairwise_map]
    exact dailyBuckets_ascending obs hr ns hbs
  · intro d
    rw [mem_lines_iff, bucket_dates_exact obs hr ns hbs d]
    constructor
    · rintro ⟨pre, o, post, hsplit, hd, _, _⟩
      exact ⟨o, by rw [hsplit]; simp, hd⟩
    · intro h
      obtain ⟨pre, o, post, hsplit, hd, hpre⟩ := first_occurrence d obs h
      refine ⟨pre, o, post, hsplit, hd, hpre, Or.inr ?_⟩
      intro x hx
      have hpw := keys_nondecreasing obs hr hord
      rw [hsplit, List.pairwise_append] at hpw
      have hle : keyOf x ≤ keyOf o := hpw.2.2 x hx o (List.mem_cons_self _ _)
      have hxo : x ∈ obs := by rw [hsplit]; simp [hx]
      have ho : o ∈ obs := by rw [hsplit]; simp
      have hne : keyOf x ≠ keyOf o := by
        intro e
        apply hpre x hx
        rw [(keyOf_eq_iff x o (hr x hxo) (hr o ho)).1 e, hd]
      omega

/-- C14 (witness): the dates 2019-12-31, 2020-01-01, 2020-01-01 and 2020-01-03, in this
order. -/
theorem ordered_input_all_dates_witness :
    (∀ o ∈ ([⟨⟨2019, 12, 31⟩, 0, 0, 1, 4⟩, ⟨⟨2020, 1, 1⟩, 0, 0, 1, 5⟩,
              ⟨⟨2020, 1, 1⟩, 6, 0, 2, 7⟩, ⟨⟨2020, 1, 3⟩, 0, 0, 1, 9⟩] : List Observation),
        o.obs_date.InRange)
    ∧ ([⟨⟨2019, 12, 31⟩, 0, 0, 1, 4⟩, ⟨⟨2020, 1, 1⟩, 0, 0, 1, 5⟩,
        ⟨⟨2020, 1, 1⟩, 6, 0, 2, 7⟩, ⟨⟨2020, 1, 3⟩, 0, 0, 1, 9⟩] : List Observation).Chain'
          (fun a b => a.obs_date = b.obs_date ∨ a.obs_date.before b.obs_date)
    ∧ ∃ lines, print_daily_averages
          [⟨⟨2019, 12, 31⟩, 0, 0, 1, 4⟩, ⟨⟨2020, 1, 1⟩, 0, 0, 1, 5⟩,
           ⟨⟨2020, 1, 1⟩, 6, 0, 2, 7⟩, ⟨⟨2020, 1, 3⟩, 0, 0, 1, 9⟩] = some lines
      ∧ lines.Pairwise (fun a b => a.date.before b.date)
      ∧ ∀ d : Date, (∃ l ∈ lines, l.date = d) ↔
          ∃ o ∈ ([⟨⟨2019, 12, 31⟩, 0, 0, 1, 4⟩, ⟨⟨2020, 1, 1⟩, 0, 0, 1, 5⟩,
                  ⟨⟨2020, 1, 1⟩, 6, 0, 2, 7⟩, ⟨⟨2020, 1, 3⟩, 0, 0, 1, 9⟩] : List Observation),
            o.obs_date = d :=
  ⟨by decide, by simp [Date.before],
    ordered_input_all_dates _ (by decide) (by simp [Date.before])⟩

end TemperatureData
